import Mathlib

/-!
# VietSpeak — verification of the audio-sample intake and quality-scoring pipeline

A shallow embedding of the signal-processing core of
`backend/app/services/voice_cloning_service.py` and of the text cleaner
`backend/app/services/text_processor.py`, together with theorems settling the
frozen specification claims.

Modelling conventions:
* Python floats are modelled by exact arithmetic: `ℚ` wherever the source code
  performs only field operations and comparisons (so definitions stay
  executable), and `ℝ` where the source genuinely needs `sqrt`/`log`.
* Calls into numeric libraries whose output is transcendental (`librosa.stft`,
  `librosa.istft`, the acoustic feature extractors, `librosa.effects.pitch_shift`,
  the pitch tracker `librosa.yin`) are taken as *parameters* of the embedded
  functions; a `none` result models the library call raising an exception.
  Everything the repository itself computes (duration check, trimming decision,
  spectral gate, RMS normalisation, pre-emphasis, clipping, score combination,
  text cleaning) is embedded concretely from the source.
* Python `try/except` blocks are modelled with `Option`: the `none` branch of a
  parameter is the `except` path of the corresponding library call.
-/

namespace VietSpeak

/-! ## Quality scorer (`_calculate_enhanced_audio_quality`, lines 385–432)

The scorer computes eight scalar statistics of the buffer with librosa
(`np.mean(magnitude[85:255])`, `np.mean(magnitude)`, `np.std(rms)`,
`np.mean(rms)`, `np.mean(rolloff)`, `np.mean(zcr)`, `np.mean(harmonic**2)`,
`np.mean(percussive**2)`), then combines them with pure arithmetic.  The
statistics are the inputs of the embedded combination; each is a mean or a
standard deviation of nonnegative quantities, hence nonnegative, which the
theorems take as hypotheses. -/

/-- The eight librosa-computed statistics consumed by the enhanced scorer. -/
structure Features where
  voiceEnergy : ℚ      -- np.mean(spectral_energy[85:255])
  totalEnergy : ℚ      -- np.mean(spectral_energy)
  rmsStd : ℚ           -- np.std(rms)
  rmsMean : ℚ          -- np.mean(rms)
  rolloffMean : ℚ      -- np.mean(rolloff)
  zcrMean : ℚ          -- np.mean(zcr)
  harmonicEnergy : ℚ   -- np.mean(harmonic**2)
  percussiveEnergy : ℚ -- np.mean(percussive**2)

/-- Python `round(x, 2)` with round-half-to-even, on exact rationals:
the integer nearest to `q` (ties to the even integer). -/
def pyRound (q : ℚ) : ℤ :=
  if Int.fract q = 1/2 then 2 * round (q / 2) else round q

/-- `round(x, 2)`: round to two decimal places. -/
def pyRound2 (q : ℚ) : ℚ := (pyRound (q * 100) : ℚ) / 100

/-- Lines 393–397: `voice_freq_range = (sr * 85 // sr, sr * 255 // sr)`
(Python `//` on positive ints is `Nat.div`). -/
def voiceFreqRange (sr : ℕ) : ℕ × ℕ := (sr * 85 / sr, sr * 255 / sr)

/-- Lines 397–428: the arithmetic of `_calculate_enhanced_audio_quality` after
the librosa statistics have been computed. -/
def enhancedQuality (f : Features) : ℚ :=
  let snr_score := min (f.voiceEnergy / (f.totalEnergy + 1e-8)) 1
  let dynamic_range := f.rmsStd / (f.rmsMean + 1e-8)
  let dynamic_score := min (dynamic_range * 2) 1
  let rolloff_score := min (f.rolloffMean / 4000) 1
  let zcr_score := min (f.zcrMean * 15) 1
  let hnr_score := f.harmonicEnergy / (f.harmonicEnergy + f.percussiveEnergy + 1e-8)
  let quality_score :=
    snr_score * 0.25 +
    dynamic_score * 0.15 +
    rolloff_score * 0.2 +
    zcr_score * 0.15 +
    hnr_score * 0.25
  pyRound2 (min quality_score 1)

/-- Lines 385–432: the enhanced scorer including its `try/except`; a `none`
argument models any internal librosa failure, answered by the default 0.6. -/
def calculateEnhancedAudioQuality (fo : Option Features) : ℚ :=
  match fo with
  | some f => enhancedQuality f
  | none => 0.6

/-- The three statistics consumed by the legacy scorer
(`_calculate_audio_quality`, lines 434–461). -/
structure LegacyFeatures where
  rmsMean : ℚ              -- np.mean(rms)
  spectralCentroidMean : ℚ -- np.mean(spectral_centroids)
  zcrMean : ℚ              -- np.mean(zcr)

/-- Lines 436–457: the arithmetic of the legacy `_calculate_audio_quality`. -/
def legacyQuality (f : LegacyFeatures) : ℚ :=
  let energy_score := min (f.rmsMean * 10) 1
  let clarity_score := min (f.spectralCentroidMean / 2000) 1
  let speech_score := min (f.zcrMean * 20) 1
  let quality_score := energy_score * 0.3 + clarity_score * 0.4 + speech_score * 0.3
  pyRound2 (min quality_score 1)

/-- Lines 434–461: the legacy scorer including its `try/except`; `none`
models an internal failure, answered by the default 0.5. -/
def calculateAudioQuality (fo : Option LegacyFeatures) : ℚ :=
  match fo with
  | some f => legacyQuality f
  | none => 0.5

/-- Clipping to `[0,1]`, as the specification phrases the per-feature step. -/
def clip01 (q : ℚ) : ℚ := max 0 (min q 1)

/-- The composite score exactly as the specification states it: each raw
sub-score clipped to `[0,1]`, then the fixed weighted combination.
(Spec-side definition, to be compared against `enhancedQuality`.) -/
def specComposite (clarity dynamic rolloff articulation harmonicity : ℚ) : ℚ :=
  0.25 * clip01 clarity + 0.15 * clip01 dynamic + 0.2 * clip01 rolloff +
    0.15 * clip01 articulation + 0.25 * clip01 harmonicity

/-- Raw (pre-clipping) sub-scores as the source computes them. -/
def rawClarity (f : Features) : ℚ := f.voiceEnergy / (f.totalEnergy + 1e-8)

def rawDynamic (f : Features) : ℚ := f.rmsStd / (f.rmsMean + 1e-8) * 2

def rawRolloff (f : Features) : ℚ := f.rolloffMean / 4000

def rawArticulation (f : Features) : ℚ := f.zcrMean * 15

def rawHarmonicity (f : Features) : ℚ :=
  f.harmonicEnergy / (f.harmonicEnergy + f.percussiveEnergy + 1e-8)

/-- All eight scorer statistics nonnegative (they are means/standard
deviations of nonnegative quantities in the source). -/
def FeaturesNonneg (f : Features) : Prop :=
  0 ≤ f.voiceEnergy ∧ 0 ≤ f.totalEnergy ∧ 0 ≤ f.rmsStd ∧ 0 ≤ f.rmsMean ∧
    0 ≤ f.rolloffMean ∧ 0 ≤ f.zcrMean ∧ 0 ≤ f.harmonicEnergy ∧ 0 ≤ f.percussiveEnergy

instance (f : Features) : Decidable (FeaturesNonneg f) := by
  unfold FeaturesNonneg; infer_instance


/-! ## Signal framing (`librosa.feature.rms`, `frame_length=2048`, `hop_length=512`)

`librosa.feature.rms` with `center=True, pad_mode="constant"` zero-pads the
signal by `frame_length//2 = 1024` samples on each side, slices it into
`1 + len(y)//512` frames of 2048 samples at hop 512, and returns the
root-mean-square of each frame.  Both `librosa.effects.trim` (via
`_signal_to_frame_nonsilent`) and the RMS normalisation step consume it.
We track the *squares* of the frame RMS values (their mean squares), which is
exact over ℚ; the square root is reintroduced over ℝ where the source takes it. -/

/-- Zero-padding for centred frames: 1024 zeros on each side. -/
def pad1024 (y : List ℚ) : List ℚ :=
  List.replicate 1024 0 ++ y ++ List.replicate 1024 0

/-- Number of frames produced by `librosa.util.frame` on the padded signal:
`1 + ((len(y) + 2048) - 2048) // 512`. -/
def numFrames (y : List ℚ) : ℕ := 1 + y.length / 512

/-- Mean square of the `i`-th centred frame — the square of the `i`-th entry
of `librosa.feature.rms(y=·)[0]`. -/
def frameMS (y : List ℚ) (i : ℕ) : ℚ :=
  (∑ j ∈ Finset.range 2048, ((pad1024 y).getD (i * 512 + j) 0) ^ 2) / 2048

/-- The list of per-frame mean squares. -/
def msList (y : List ℚ) : List ℚ := (List.range (numFrames y)).map (frameMS y)

/-! ## Silence trimming (`librosa.effects.trim(audio, top_db=25)`, line 318) -/

/-- `ref²` for the trim threshold, where `ref = np.max(mse)` over the frame
RMS values: squaring is monotone on nonnegatives, so this is the maximum of
the per-frame mean squares (the fold base 0 is a lower bound of every mean
square). -/
def trimRef2 (y : List ℚ) : ℚ := (msList y).foldr max 0

/-- The frame non-silence test of `librosa.effects.trim` with `top_db=25`:
`amplitude_to_db(mse, ref=np.max, amin=1e-5) > -25`, i.e.
`10·log10(max(1e-10, mseᵢ²)) - 10·log10(max(1e-10, ref²)) > -25`.
Stated multiplicatively over ℚ: raising `10^(·/10)` and squaring (both sides
positive) turns it into `max(1e-10, msᵢ)² · 10⁵ > max(1e-10, ref²)²`. -/
def nonsilent (y : List ℚ) (i : ℕ) : Prop :=
  max 1e-10 (trimRef2 y) ^ 2 < max 1e-10 (frameMS y i) ^ 2 * 100000

instance (y : List ℚ) (i : ℕ) : Decidable (nonsilent y i) := by
  unfold nonsilent; infer_instance

/-- `np.flatnonzero(non_silent)`: indices of non-silent frames, ascending. -/
def nonsilentIndices (y : List ℚ) : List ℕ :=
  (List.range (numFrames y)).filter (fun i => decide (nonsilent y i))

/-- Line 318: `librosa.effects.trim(audio, top_db=25)[0]` — keeps
`y[start:end]` with `start = 512·(first nonsilent frame)` and
`end = min(len(y), 512·(last nonsilent frame + 1))`; when every frame is
silent it returns the empty slice `y[0:0]`. -/
def trimSilence (y : List ℚ) : List ℚ :=
  match (nonsilentIndices y).head?, (nonsilentIndices y).getLast? with
  | some a, some b => (y.take (min y.length ((b + 1) * 512))).drop (a * 512)
  | _, _ => []

/-! ## Noise reduction (`_apply_noise_reduction`, lines 355–383)

`librosa.stft` / `librosa.istft` are transcendental; they enter as parameters:
`stftMag audio` is the magnitude matrix `np.abs(stft)` as a list of time
columns (each a list of per-frequency magnitudes), and `recon gated` is
`librosa.istft(gated_magnitude * exp(1j*phase), hop_length=512)` with the
original phase.  A `none` models the library call raising, which the `except`
(lines 381–383) answers by returning the input unchanged. -/

/-- `np.mean(magnitude, axis=0)` for one time column. -/
def frameEnergy (fr : List ℚ) : ℚ := fr.sum / fr.length

/-- `np.percentile(xs, 20)` with the default linear interpolation:
`h = (n-1)/5`, `lo = ⌊h⌋`, `a[lo] + (h-lo)·(a[lo+1]-a[lo])` on sorted data. -/
def percentile20 (xs : List ℚ) : ℚ :=
  let sorted := xs.mergeSort (· ≤ ·)
  let h : ℚ := ((xs.length - 1 : ℕ) : ℚ) / 5
  let lo := ⌊h⌋.toNat
  let frac := h - (lo : ℚ)
  sorted.getD lo 0 + frac * (sorted.getD (lo + 1) (sorted.getD lo 0) - sorted.getD lo 0)

/-- Lines 363–373: noise floor = 20th percentile of per-frame mean energy;
frames with energy below `1.5×` the floor have their magnitudes scaled by 0.3. -/
def spectralGate (frames : List (List ℚ)) : List (List ℚ) :=
  let noise_threshold := percentile20 (frames.map frameEnergy)
  frames.map (fun fr =>
    if frameEnergy fr < noise_threshold * 1.5 then fr.map (· * 0.3) else fr)

/-- Lines 355–383 (`_apply_noise_reduction`): spectral-gating noise reduction
with the catch-all `except` returning the input unchanged.  The
`frames.isEmpty` branch models `np.percentile` raising on an empty energy
vector (also caught). -/
def applyNoiseReduction (stftMag : List ℚ → Option (List (List ℚ)))
    (recon : List (List ℚ) → Option (List ℚ)) (audio : List ℚ) : List ℚ :=
  match stftMag audio with
  | none => audio
  | some frames =>
      if frames.isEmpty then audio
      else
        match recon (spectralGate frames) with
        | none => audio
        | some audio_cleaned => audio_cleaned

/-! ## RMS normalisation, pre-emphasis, clipping (lines 323–336) -/

/-- `current_rms²`: the source computes `rms = librosa.feature.rms(y=·)[0]`
then `current_rms = np.sqrt(np.mean(rms**2))` (lines 324–326); the mean of
the per-frame mean squares is `current_rms²`, exactly rational. -/
def currentMS (y : List ℚ) : ℚ := (msList y).sum / (msList y).length

/-- `pad1024` for real-valued buffers: the same framing statistics, stated
over ℝ so they can be re-measured on the pipeline's real-valued buffers. -/
noncomputable def pad1024R (y : List ℝ) : List ℝ :=
  List.replicate 1024 0 ++ y ++ List.replicate 1024 0

/-- `frameMS` over ℝ. -/
noncomputable def frameMSR (y : List ℝ) (i : ℕ) : ℝ :=
  (∑ j ∈ Finset.range 2048, ((pad1024R y).getD (i * 512 + j) 0) ^ 2) / 2048

/-- `msList` over ℝ (frame count `1 + len(y)//512` as in `numFrames`). -/
noncomputable def msListR (y : List ℝ) : List ℝ :=
  (List.range (1 + y.length / 512)).map (frameMSR y)

/-- `currentMS` over ℝ: the square of the `current_rms` statistic that the
normalisation step would measure on a real-valued buffer. -/
noncomputable def currentMSR (y : List ℝ) : ℝ := (msListR y).sum / (msListR y).length

/-- Sample mean square of a buffer: the square of its (plain) root-mean-square. -/
noncomputable def meanSquareR (x : List ℝ) : ℝ := (x.map (fun v => v ^ 2)).sum / x.length

/-- Lines 323–330: scale every sample by `target_rms / current_rms` with
`target_rms = 0.2` when `current_rms > 0`; otherwise return the input
unchanged. -/
noncomputable def rmsNormalize (y : List ℚ) : List ℝ :=
  if 0 < Real.sqrt (currentMS y) then
    y.map (fun v => (Rat.cast v : ℝ) * (0.2 / Real.sqrt (currentMS y)))
  else
    y.map (fun v => (Rat.cast v : ℝ))

/-- Line 333: `librosa.effects.preemphasis` with default `coef = 0.97`:
`y[n] = x[n] - 0.97·x[n-1]`, the first output sample using librosa's default
initial condition, the linear extrapolation `x[-1] = 2·x[0] - x[1]`. -/
noncomputable def preemphasisAux (prev : ℝ) : List ℝ → List ℝ
  | [] => []
  | v :: rest => (v - 0.97 * prev) :: preemphasisAux v rest

noncomputable def preemphasis (x : List ℝ) : List ℝ :=
  match x with
  | [] => []
  | x0 :: rest => preemphasisAux (2 * x0 - rest.headD x0) (x0 :: rest)

/-- `np.clip` on a scalar: `min(max(x, lo), hi)`. -/
noncomputable def npClip (x lo hi : ℝ) : ℝ := min (max x lo) hi

/-- Line 336: `np.clip(audio_filtered, -0.99, 0.99)` elementwise. -/
noncomputable def clipBuffer (x : List ℝ) : List ℝ :=
  x.map (fun v => npClip v (-0.99) 0.99)

/-! ## The intake pipeline (`_process_audio_sample`, lines 301–353) -/

inductive PipelineError where
  | tooShort
  | tooLong
deriving DecidableEq

/-- The `ValueError` messages of lines 311–314, as re-wrapped by the outer
`except` (line 353); each names the violated bound. -/
def pipelineErrorMessage : PipelineError → String
  | .tooShort => "Audio processing failed: Audio sample too short. Minimum 3 seconds required."
  | .tooLong => "Audio processing failed: Audio sample too long. Maximum 5 minutes allowed."

/-- The value a successful intake run emits (lines 345–350); the processed
buffer stands in for the file written at `processed_path`. -/
structure IntakeResult where
  duration : ℚ
  sampleRate : ℕ
  qualityScore : ℚ
  buffer : List ℝ

/-- Line 308: `librosa.get_duration(y=audio, sr=sr) = len(audio)/sr` with
`sr = 22050`.  (Exact rational model of the float computation: near the 3.0 s
and 300.0 s bounds the float result is exact or within 1 ulp, never crossing
a bound, since 66150/22050 and 6615000/22050 are exactly representable.) -/
def durationOf (audio : List ℚ) : ℚ := (audio.length : ℚ) / 22050

/-- Lines 301–353 (`_process_audio_sample`) after `librosa.load(path, sr=22050)`
has decoded the upload into `audio`: duration validation, then
trim → denoise → RMS-normalise → pre-emphasis → clip → score.
`stftMag`/`recon` are the noise-reduction library transforms and
`extractFeatures` is the librosa feature extraction feeding the enhanced
scorer (`none` models the library raising — absorbed by the inner `except`s,
never escaping the pipeline). -/
noncomputable def processAudioSample (stftMag : List ℚ → Option (List (List ℚ)))
    (recon : List (List ℚ) → Option (List ℚ))
    (extractFeatures : List ℝ → Option Features)
    (audio : List ℚ) : Except PipelineError IntakeResult :=
  let duration := durationOf audio
  if duration < 3 then .error .tooShort
  else if duration > 300 then .error .tooLong
  else
    let audio_trimmed := trimSilence audio
    let audio_denoised := applyNoiseReduction stftMag recon audio_trimmed
    let audio_normalized := rmsNormalize audio_denoised
    let audio_filtered := preemphasis audio_normalized
    let audio_final := clipBuffer audio_filtered
    let quality_score := calculateEnhancedAudioQuality (extractFeatures audio_final)
    .ok ⟨duration, 22050, quality_score, audio_final⟩

/-! ## Pitch-transfer fallback (`_apply_voice_characteristics`, lines 269–299) -/

/-- Lines 269–299: the pitch-transfer fallback.  `voiceMean` / `basicMean` are
the `np.nanmean` of the positive `librosa.yin` pitch estimates of the voice
sample and of the generated audio (`none` models a NaN mean, i.e. no valid
estimate, or a pitch-tracker failure caught by the `except`).  `pitchShift s`
models `librosa.effects.pitch_shift(basic_audio, sr=sr, n_steps=s)`; a `none`
result models the library raising, which the `except` answers by returning
`basic_audio` unchanged. -/
noncomputable def applyVoiceCharacteristics (pitchShift : ℝ → Option (List ℝ))
    (voiceMean basicMean : Option ℝ) (basicAudio : List ℝ) : List ℝ :=
  match voiceMean, basicMean with
  | some vm, some bm =>
      if 0 < bm then
        let pitch_shift_ratio := npClip (vm / bm) 0.5 2
        match pitchShift (12 * Real.logb 2 pitch_shift_ratio) with
        | some modified => modified
        | none => basicAudio
      else basicAudio
  | _, _ => basicAudio

/-! ## Text cleaner (`text_processor.py`, `TextProcessor.clean_text`, lines 16–45)

`clean_text` with its default options applies, in order,
`_remove_markdown_formatting`, `_remove_links`, `_remove_brackets`,
`_normalize_whitespace`, then `.strip()` (`remove_special_chars` defaults to
`False`).  Each helper is a chain of `re.sub` calls.  The embedding works on
`List Char` and implements each regular expression as a *matcher*: at a given
position (start-of-line flag + remaining suffix) it either fails or returns
`(consumed, replacement)`, mirroring the pattern's greedy/lazy backtracking
semantics; a generic driver replays Python's `re.sub` (leftmost,
non-overlapping, continue after each match). -/

/-- Python's `\s` (and `str.strip()`'s notion of whitespace) for `str`
patterns: the ASCII whitespace `\t\n\v\f\r` and space, the C0 separators
`\x1c`–`\x1f`, next-line `\x85`, and the Unicode space separators. -/
def isSpace (c : Char) : Bool :=
  c.val == 0x20 || (0x9 ≤ c.val && c.val ≤ 0xD) || (0x1C ≤ c.val && c.val ≤ 0x1F) ||
  c.val == 0x85 || c.val == 0xA0 || c.val == 0x1680 ||
  (0x2000 ≤ c.val && c.val ≤ 0x200A) || c.val == 0x2028 || c.val == 0x2029 ||
  c.val == 0x202F || c.val == 0x205F || c.val == 0x3000

/-- The backquote character (written by code point). -/
def backquote : Char := Char.ofNat 96

/-- Length of the longest prefix whose characters all satisfy `p`
(the span a greedy `X*` of character class `X` consumes). -/
def countWhile (p : Char → Bool) (s : List Char) : ℕ := (s.takeWhile p).length

/-- Lazy `(.*?)post` search: the least `k` such that `post` is a prefix of
`s.drop k` and every skipped character satisfies `content`; `none` when a
skipped character fails `content` or the string ends first. -/
def lazyFind (content : Char → Bool) (post : List Char) : List Char → Option ℕ
  | [] => if post.isEmpty then some 0 else none
  | c :: rest =>
    if post.isPrefixOf (c :: rest) then some 0
    else if content c then (lazyFind content post rest).map (· + 1)
    else none

/-- A substitution rule: given the start-of-line flag and the suffix at the
current position, either no match here, or `(consumed, replacement)` with
`consumed ≥ 1` (none of the embedded patterns can match the empty string). -/
def Matcher : Type := Bool → List Char → Option (ℕ × List Char)

/-- The `re.sub` driver: scan left to right, replace the leftmost match,
continue right after it (Python semantics; replacements are not rescanned).
`atLS` tracks "position 0 or just after a newline of the original string",
implementing `^` under `re.MULTILINE`.  Fuel bounds the number of positions
visited; every step consumes at least one character, so `s.length` suffices
(a zero-length "match" is treated as no match — unreachable for these
patterns). -/
def reSubAux (m : Matcher) : ℕ → Bool → List Char → List Char
  | 0, _, s => s
  | _ + 1, _, [] => []
  | fuel + 1, atLS, c :: rest =>
    match m atLS (c :: rest) with
    | some (n + 1, repl) =>
        repl ++ reSubAux m fuel (((c :: rest).getD n ' ') == '\n') (rest.drop n)
    | _ => c :: reSubAux m fuel (c == '\n') rest

def reSub (m : Matcher) (s : List Char) : List Char := reSubAux m s.length true s

/-- Line 51: `re.sub(r'^#{1,6}\s+', '', text, flags=re.MULTILINE)`.
`#{1,6}` greedy can only succeed with the full run of `#`s (a shorter run is
followed by another `#`, which `\s` rejects), so: 1–6 `#`s followed by at
least one whitespace character. -/
def headerM : Matcher := fun atLS s =>
  if !atLS then none
  else
    let h := countWhile (· == '#') s
    let w := countWhile isSpace (s.drop h)
    if 1 ≤ h && h ≤ 6 && 1 ≤ w then some (h + w, []) else none

/-- One alternative of lines 54–55: `(dd)(.*?)(dd)` for a doubled delimiter
`d`, replaced by the lazy group (`.` does not match newline). -/
def pairM (d : Char) (s : List Char) : Option (ℕ × List Char) :=
  if [d, d].isPrefixOf s then
    (lazyFind (· != '\n') [d, d] (s.drop 2)).map (fun k => (k + 4, (s.drop 2).take k))
  else none

/-- One alternative of line 55: `(d)(.*?)(d)` for a single delimiter. -/
def singleM (d : Char) (s : List Char) : Option (ℕ × List Char) :=
  if [d].isPrefixOf s then
    (lazyFind (· != '\n') [d] (s.drop 1)).map (fun k => (k + 2, (s.drop 1).take k))
  else none

/-- Line 54: `re.sub(r'(\*\*|__)(.*?)\1', r'\2', text)`; the alternation
tries `**` before `__`, and the backreference closes with the same
delimiter. -/
def boldM : Matcher := fun _ s =>
  match pairM '*' s with
  | some r => some r
  | none => pairM '_' s

/-- Line 55: `re.sub(r'(\*|_)(.*?)\1', r'\2', text)`. -/
def italicM : Matcher := fun _ s =>
  match singleM '*' s with
  | some r => some r
  | none => singleM '_' s

/-- Line 58: `re.sub(r'~~(.*?)~~', r'\1', text)`. -/
def strikeM : Matcher := fun _ s => pairM '~' s

/-- Line 61: ``re.sub(r'`([^`]+)`', r'\1', text)``: a backquote, at least one
non-backquote (newlines allowed), a backquote; replaced by the content. -/
def inlineCodeM : Matcher := fun _ s =>
  match s with
  | c :: rest =>
    if c == backquote then
      let k := countWhile (· != backquote) rest
      if 1 ≤ k && (rest.drop k).head? == some backquote then some (k + 2, rest.take k)
      else none
    else none
  | _ => none

/-- Line 64: ``re.sub(r'```[\s\S]*?```', '', text)``: lazy match across
newlines, removed. -/
def codeBlockM : Matcher := fun _ s =>
  if [backquote, backquote, backquote].isPrefixOf s then
    (lazyFind (fun _ => true) [backquote, backquote, backquote] (s.drop 3)).map
      (fun k => (k + 6, []))
  else none

/-- Line 67: `re.sub(r'^>\s+', '', text, flags=re.MULTILINE)`. -/
def blockquoteM : Matcher := fun atLS s =>
  match atLS, s with
  | true, '>' :: rest =>
    let w := countWhile isSpace rest
    if 1 ≤ w then some (w + 1, []) else none
  | _, _ => none

/-- `$` under `re.MULTILINE`: end of string or immediately before `\n`. -/
def atEol (s : List Char) : Bool :=
  match s with
  | [] => true
  | c :: _ => c == '\n'

/-- Greedy `\s*$`: the largest `j` within the whitespace run after which `$`
holds (greedy `\s*` backtracks from the full run). -/
def greedyWsEol (s : List Char) : Option ℕ :=
  ((List.range (countWhile isSpace s + 1)).reverse).find? (fun j => atEol (s.drop j))

/-- Line 70: `re.sub(r'^(---|\*\*\*|___)\s*$', '', text, flags=re.MULTILINE)`;
alternation order `---`, `***`, `___`. -/
def hruleM : Matcher := fun atLS s =>
  if !atLS then none
  else
    let tryPat : List Char → Option (ℕ × List Char) := fun pat =>
      if pat.isPrefixOf s then (greedyWsEol (s.drop 3)).map (fun j => (3 + j, []))
      else none
    match tryPat ['-', '-', '-'] with
    | some r => some r
    | none =>
      match tryPat ['*', '*', '*'] with
      | some r => some r
      | none => tryPat ['_', '_', '_']

/-- Line 73: `re.sub(r'^[\s]*[-*+]\s+', '', text, flags=re.MULTILINE)`.
Greedy `[\s]*` can only succeed with the full whitespace run (anything
shorter leaves a whitespace character where `[-*+]` must match). -/
def listMarkerM : Matcher := fun atLS s =>
  if !atLS then none
  else
    let w := countWhile isSpace s
    match (s.drop w).head? with
    | some c =>
      if c == '-' || c == '*' || c == '+' then
        let w2 := countWhile isSpace (s.drop (w + 1))
        if 1 ≤ w2 then some (w + 1 + w2, []) else none
      else none
    | none => none

/-- Line 74: `re.sub(r'^[\s]*\d+\.\s+', '', text, flags=re.MULTILINE)`.
(`\d` is modelled as the ASCII digits.) -/
def numberedM : Matcher := fun atLS s =>
  if !atLS then none
  else
    let w := countWhile isSpace s
    let d := countWhile (fun c => c.isDigit) (s.drop w)
    if 1 ≤ d && (s.drop (w + d)).head? == some '.' then
      let w2 := countWhile isSpace (s.drop (w + d + 1))
      if 1 ≤ w2 then some (w + d + 1 + w2, []) else none
    else none

/-- For line 78: 1 when the optional leading `:` of `:?-+` is taken (a colon
followed by a dash after the whitespace run; otherwise `-+` fails with or
without it), else 0. -/
def tableSepC1 (s : List Char) : ℕ :=
  let w := countWhile isSpace s
  if (s.drop w).head? == some ':' && (s.drop (w + 1)).head? == some '-' then 1 else 0

/-- For line 78: the dash run of `-+` (after the whitespace run and the
optional leading colon). -/
def tableSepDashes (s : List Char) : ℕ :=
  countWhile (· == '-') (s.drop (countWhile isSpace s + tableSepC1 s))

/-- For line 78: everything consumed before the trailing `[\s]*$` —
whitespace run, optional colon, dashes, and the trailing `:?` (taken when
present: not taking it leaves `:` where `[\s]*$` must hold, which fails). -/
def tableSepOff (s : List Char) : ℕ :=
  let base := countWhile isSpace s + tableSepC1 s + tableSepDashes s
  if (s.drop base).head? == some ':' then base + 1 else base

/-- Line 78: `re.sub(r'^[\s]*:?-+:?[\s]*$', '', text, flags=re.MULTILINE)`. -/
def tableSepM : Matcher := fun atLS s =>
  if !atLS then none
  else if 1 ≤ tableSepDashes s then
    (greedyWsEol (s.drop (tableSepOff s))).map (fun j => (tableSepOff s + j, []))
  else none

/-- Line 86: `re.sub(r'\[([^\]]+)\]\(([^)]+)\)'`-style markdown links
`[text](url)` → `text` (the source pattern is `\[([^\]]+)\]\([^)]+\)` with
replacement `\1`). -/
def mdLinkM : Matcher := fun _ s =>
  match s with
  | '[' :: rest =>
    let c1 := countWhile (· != ']') rest
    if 1 ≤ c1 && (rest.drop c1).head? == some ']' &&
        (rest.drop (c1 + 1)).head? == some '(' then
      let inner := rest.drop (c1 + 2)
      let c2 := countWhile (· != ')') inner
      if 1 ≤ c2 && (inner.drop c2).head? == some ')' then
        some (c1 + c2 + 4, rest.take c1)
      else none
    else none
  | _ => none

/-- Line 89: `re.sub(r'\[([^\]]+)\]\[[^\]]*\]', r'\1', text)`. -/
def refLinkM : Matcher := fun _ s =>
  match s with
  | '[' :: rest =>
    let c1 := countWhile (· != ']') rest
    if 1 ≤ c1 && (rest.drop c1).head? == some ']' &&
        (rest.drop (c1 + 1)).head? == some '[' then
      let inner := rest.drop (c1 + 2)
      let c2 := countWhile (· != ']') inner
      if (inner.drop c2).head? == some ']' then
        some (c1 + c2 + 4, rest.take c1)
      else none
    else none
  | _ => none

/-- Greedy `\s+.+$`: at least one whitespace, then at least one non-newline
character, then `$`.  `\s+` backtracks from its full run `w` down to 1 until
`.+` can consume at least one character; after a maximal `.` run, `$` holds
automatically. -/
def wsDotEol (u : List Char) : Option ℕ :=
  (((List.range (countWhile isSpace u)).map (· + 1)).reverse.find?
      (fun a => 1 ≤ countWhile (· != '\n') (u.drop a))).map
    (fun a => a + countWhile (· != '\n') (u.drop a))

/-- Line 92: `re.sub(r'^\s*\[[^\]]+\]:\s+.+$', '', text, flags=re.MULTILINE)`. -/
def refDefM : Matcher := fun atLS s =>
  if !atLS then none
  else
    let w := countWhile isSpace s
    match (s.drop w).head? with
    | some '[' =>
      let rest := s.drop (w + 1)
      let c1 := countWhile (· != ']') rest
      if 1 ≤ c1 && (rest.drop c1).head? == some ']' &&
          (rest.drop (c1 + 1)).head? == some ':' then
        (wsDotEol (rest.drop (c1 + 2))).map (fun t => (w + c1 + 3 + t, []))
      else none
    | _ => none

/-- Line 95: `re.sub(r'https?://[^\s]+', '', text)`; `s?` greedy, with its
(vacuous) backtracking alternative. -/
def urlM : Matcher := fun _ s =>
  if ['h', 't', 't', 'p'].isPrefixOf s then
    let tryFrom : ℕ → Option (ℕ × List Char) := fun pre =>
      if [':', '/', '/'].isPrefixOf (s.drop pre) then
        let k := countWhile (fun c => !isSpace c) (s.drop (pre + 3))
        if 1 ≤ k then some (pre + 3 + k, []) else none
      else none
    if (s.drop 4).head? == some 's' then
      match tryFrom 5 with
      | some r => some r
      | none => tryFrom 4
    else tryFrom 4
  else none

/-- `[a-zA-Z0-9._%+-]`, the local part of the email pattern (ASCII classes
as written in the source). -/
def isLocalChar (c : Char) : Bool :=
  c.isAlpha || c.isDigit || c == '.' || c == '_' || c == '%' || c == '+' || c == '-'

/-- `[a-zA-Z0-9.-]`, the domain part of the email pattern. -/
def isDomainChar (c : Char) : Bool :=
  c.isAlpha || c.isDigit || c == '.' || c == '-'

/-- Line 98: `re.sub(r'[a-zA-Z0-9._%+-]+@[a-zA-Z0-9.-]+\.[a-zA-Z]{2,}', '',
text)`.  `+` classes are greedy; `@` and `\.` are outside their preceding
classes except for the domain, where the engine backtracks to the longest
domain run followed by a literal dot and at least two letters. -/
def emailM : Matcher := fun _ s =>
  let l := countWhile isLocalChar s
  if 1 ≤ l && (s.drop l).head? == some '@' then
    let u := s.drop (l + 1)
    ((((List.range (countWhile isDomainChar u)).map (· + 1)).reverse.find?
        (fun d => (u.drop d).head? == some '.' &&
          2 ≤ countWhile (fun c => c.isAlpha) (u.drop (d + 1)))).map
      (fun d => (l + 1 + d + 1 + countWhile (fun c => c.isAlpha) (u.drop (d + 1)), [])))
  else none

/-- Line 106: `re.sub(r'\[[^\]]*\]', '', text)`. -/
def bracketsM : Matcher := fun _ s =>
  match s with
  | '[' :: rest =>
    let k := countWhile (· != ']') rest
    if (rest.drop k).head? == some ']' then some (k + 2, []) else none
  | _ => none

/-- Line 109: `re.sub(r'\([^)]*\)', '', text)`. -/
def parensM : Matcher := fun _ s =>
  match s with
  | '(' :: rest =>
    let k := countWhile (· != ')') rest
    if (rest.drop k).head? == some ')' then some (k + 2, []) else none
  | _ => none

/-- Line 131: `re.sub(r'\s+', ' ', text)`. -/
def wsRunM : Matcher := fun _ s =>
  let w := countWhile isSpace s
  if 1 ≤ w then some (w, [' ']) else none

/-- Line 134: `re.sub(r'\n{3,}', '\n\n', text)`. -/
def newlines3M : Matcher := fun _ s =>
  let w := countWhile (· == '\n') s
  if 3 ≤ w then some (w, ['\n', '\n']) else none

/-- The punctuation class `[.,!?;:]` of lines 137–138. -/
def isPunct (c : Char) : Bool :=
  c == '.' || c == ',' || c == '!' || c == '?' || c == ';' || c == ':'

/-- Line 137: `re.sub(r'\s+([.,!?;:])', r'\1', text)`. -/
def spaceBeforePunctM : Matcher := fun _ s =>
  let w := countWhile isSpace s
  if 1 ≤ w then
    match (s.drop w).head? with
    | some c => if isPunct c then some (w + 1, [c]) else none
    | none => none
  else none

/-- Line 138: `re.sub(r'([.,!?;:])\s+', r'\1 ', text)`. -/
def punctSpaceM : Matcher := fun _ s =>
  match s with
  | c :: rest =>
    if isPunct c then
      let w := countWhile isSpace rest
      if 1 ≤ w then some (w + 1, [c, ' ']) else none
    else none
  | _ => none

/-- Python `str.strip()`: drop leading and trailing whitespace. -/
def pyStrip (s : List Char) : List Char :=
  ((s.dropWhile isSpace).reverse.dropWhile isSpace).reverse

/-- Python `'\n'.join`: concatenate with a newline between elements. -/
def joinLines : List (List Char) → List Char
  | [] => []
  | [l] => l
  | l :: ls => l ++ '\n' :: joinLines ls

/-- Lines 140–142: split on `'\n'`, strip each line, drop lines that strip
to empty, join with `'\n'`. -/
def stripLines (s : List Char) : List Char :=
  joinLines (((s.splitOn '\n').map pyStrip).filter (fun l => !l.isEmpty))

/-- Lines 47–80: `_remove_markdown_formatting`, substitutions in source
order (line 77 is the literal `text.replace('|', ' ')`). -/
def removeMarkdownFormatting (s : List Char) : List Char :=
  let s1 := reSub headerM s
  let s2 := reSub boldM s1
  let s3 := reSub italicM s2
  let s4 := reSub strikeM s3
  let s5 := reSub inlineCodeM s4
  let s6 := reSub codeBlockM s5
  let s7 := reSub blockquoteM s6
  let s8 := reSub hruleM s7
  let s9 := reSub listMarkerM s8
  let s10 := reSub numberedM s9
  let s11 := s10.map (fun c => if c == '|' then ' ' else c)
  reSub tableSepM s11

/-- Lines 82–100: `_remove_links`. -/
def removeLinks (s : List Char) : List Char :=
  let s1 := reSub mdLinkM s
  let s2 := reSub refLinkM s1
  let s3 := reSub refDefM s2
  let s4 := reSub urlM s3
  reSub emailM s4

/-- Lines 102–111: `_remove_brackets`. -/
def removeBracketsF (s : List Char) : List Char :=
  reSub parensM (reSub bracketsM s)

/-- Lines 127–144: `_normalize_whitespace`. -/
def normalizeWhitespace (s : List Char) : List Char :=
  let s1 := reSub wsRunM s
  let s2 := reSub newlines3M s1
  let s3 := reSub spaceBeforePunctM s2
  let s4 := reSub punctSpaceM s3
  stripLines s4

/-- Lines 16–45: `clean_text` with its default options (`remove_markdown`,
`remove_links`, `remove_brackets`, `normalize_whitespace` true,
`remove_special_chars` false), then the final `.strip()`. -/
def cleanText (s : List Char) : List Char :=
  pyStrip (normalizeWhitespace (removeBracketsF (removeLinks
    (removeMarkdownFormatting s))))

/-- A substitution rule is well-formed the way every real regex match is:
the replacement is no longer than the match, and the match does not extend
past the end of the string.  This is what makes a whole `re.sub` pass
length-nonincreasing. -/
def Shrinking (m : Matcher) : Prop :=
  ∀ b s n repl, m b s = some (n, repl) → repl.length ≤ n ∧ n ≤ s.length

/-! ## Theorems: supporting lemmas and the claims -/

lemma clip01_nonneg (q : ℚ) : 0 ≤ clip01 q := le_max_left _ _

lemma clip01_le_one (q : ℚ) : clip01 q ≤ 1 := by
  unfold clip01
  simp only [max_le_iff, min_le_iff]
  exact ⟨zero_le_one, Or.inr le_rfl⟩

lemma clip01_of_nonneg {q : ℚ} (h : 0 ≤ q) : clip01 q = min q 1 := by
  unfold clip01
  exact max_eq_right (le_min h zero_le_one)

lemma clip01_eq_self {q : ℚ} (h0 : 0 ≤ q) (h1 : q ≤ 1) : clip01 q = q := by
  unfold clip01
  rw [min_eq_left h1, max_eq_right h0]

lemma round_range {s : ℚ} {K : ℤ} (h0 : 0 ≤ s) (h1 : s ≤ (K : ℚ)) :
    0 ≤ round s ∧ round s ≤ K := by
  rw [round_eq]
  constructor
  · exact Int.le_floor.mpr (by push_cast; linarith)
  · have h : ⌊s + 1 / 2⌋ < K + 1 := Int.floor_lt.mpr (by push_cast; linarith)
    omega

lemma pyRound_range {t : ℚ} (h0 : 0 ≤ t) (h1 : t ≤ 100) :
    0 ≤ pyRound t ∧ pyRound t ≤ 100 := by
  unfold pyRound
  by_cases hf : Int.fract t = 1/2
  · rw [if_pos hf]
    have h := round_range (K := 50) (by linarith : (0:ℚ) ≤ t / 2) (by push_cast; linarith)
    omega
  · rw [if_neg hf]
    exact round_range h0 (by push_cast; linarith)

lemma pyRound2_range {q : ℚ} (h0 : 0 ≤ q) (h1 : q ≤ 1) :
    0 ≤ pyRound2 q ∧ pyRound2 q ≤ 1 := by
  have hb := pyRound_range (by linarith : (0:ℚ) ≤ q * 100) (by linarith : q * 100 ≤ 100)
  unfold pyRound2
  constructor
  · exact div_nonneg (by exact_mod_cast hb.1) (by norm_num)
  · rw [div_le_one (by norm_num)]
    exact_mod_cast hb.2

/-- C10: the "voice-relevant frequency band" `(sr*85)//sr .. (sr*255)//sr` is
the fixed STFT-bin range `85..255` for every positive integer sample rate:
it does not depend on `sr` and is a bin-index range, not a range in Hz. -/
theorem voiceFreqRange_constant (sr : ℕ) (h : 0 < sr) : voiceFreqRange sr = (85, 255) := by
  unfold voiceFreqRange
  rw [Nat.mul_div_cancel_left 85 h, Nat.mul_div_cancel_left 255 h]

theorem voiceFreqRange_constant_witness :
    0 < 22050 ∧ voiceFreqRange 22050 = (85, 255) :=
  ⟨by decide, voiceFreqRange_constant 22050 (by decide)⟩

/-- C6: in the pitch-transfer fallback, whenever both pitch means are valid and
the generated mean is positive, the applied shift is exactly
`12·log2(clip(reference/generated, 0.5, 2.0))` semitones, whose absolute value
never exceeds 12; whenever either estimate is invalid, the generated mean is
not positive, or the shifting library call fails, the generated audio is
returned unmodified. -/
theorem pitch_transfer_clamped (ps : ℝ → Option (List ℝ)) (audio : List ℝ) :
    (∀ v b : ℝ, 0 < b →
      applyVoiceCharacteristics ps (some v) (some b) audio =
        (ps (12 * Real.logb 2 (npClip (v / b) 0.5 2))).getD audio) ∧
    (∀ v b : ℝ, 0 < b → |12 * Real.logb 2 (npClip (v / b) 0.5 2)| ≤ 12) ∧
    (∀ bm, applyVoiceCharacteristics ps none bm audio = audio) ∧
    (∀ v, applyVoiceCharacteristics ps (some v) none audio = audio) ∧
    (∀ v b : ℝ, ¬ 0 < b → applyVoiceCharacteristics ps (some v) (some b) audio = audio) := by
  refine ⟨?_, ?_, ?_, ?_, ?_⟩
  · intro v b hb
    show (if 0 < b then _ else _) = _
    rw [if_pos hb]
    cases ps (12 * Real.logb 2 (npClip (v / b) 0.5 2)) <;> rfl
  · intro v b _
    have hlo : (0.5 : ℝ) ≤ npClip (v / b) 0.5 2 := by
      unfold npClip
      exact le_min (le_max_right _ _) (by norm_num)
    have hhi : npClip (v / b) 0.5 2 ≤ 2 := min_le_right _ _
    have hpos : (0 : ℝ) < npClip (v / b) 0.5 2 := by linarith
    have hub : Real.logb 2 (npClip (v / b) 0.5 2) ≤ 1 := by
      have h := Real.logb_le_logb_of_le (b := 2) (by norm_num) hpos hhi
      rwa [Real.logb_self_eq_one (by norm_num)] at h
    have hlb : (-1 : ℝ) ≤ Real.logb 2 (npClip (v / b) 0.5 2) := by
      have h2 : Real.logb 2 (0.5 : ℝ) = -1 := by
        rw [show (0.5 : ℝ) = 2⁻¹ by norm_num, Real.logb_inv,
          Real.logb_self_eq_one (by norm_num)]
      calc (-1 : ℝ) = Real.logb 2 (0.5 : ℝ) := h2.symm
        _ ≤ _ := Real.logb_le_logb_of_le (by norm_num) (by norm_num) hlo
    rw [abs_le]
    constructor <;> linarith
  · intro bm
    cases bm <;> rfl
  · intro v
    rfl
  · intro v b hb
    show (if 0 < b then _ else _) = _
    rw [if_neg hb]

theorem pitch_transfer_clamped_witness :
    (0 : ℝ) < 1 ∧
      applyVoiceCharacteristics (fun _ => none) (some 4) (some 1) [] = [] ∧
      |12 * Real.logb 2 (npClip ((4 : ℝ) / 1) 0.5 2)| ≤ 12 := by
  refine ⟨by norm_num, ?_, (pitch_transfer_clamped (fun _ => none) []).2.1 4 1 (by norm_num)⟩
  rw [(pitch_transfer_clamped (fun _ => none) []).1 4 1 (by norm_num)]
  rfl

/-- C3: for every input on which the scorer succeeds (its eight librosa
statistics, nonnegative by construction), the composite equals
`0.25·clarity + 0.15·dynamic + 0.20·rolloff + 0.15·articulation +
0.25·harmonicity` with each sub-score clipped to `[0,1]` before weighting,
and the returned value lies in `[0,1]` and is rounded to 2 decimal places. -/
theorem enhancedQuality_composite (f : Features) (h : FeaturesNonneg f) :
    enhancedQuality f =
      pyRound2 (specComposite (rawClarity f) (rawDynamic f) (rawRolloff f)
        (rawArticulation f) (rawHarmonicity f)) ∧
    0 ≤ enhancedQuality f ∧ enhancedQuality f ≤ 1 ∧
    ∃ k : ℤ, enhancedQuality f = (k : ℚ) / 100 := by
  obtain ⟨h1, h2, h3, h4, h5, h6, h7, h8⟩ := h
  have hden1 : (0:ℚ) < f.totalEnergy + 1e-8 := by norm_num; linarith
  have hden2 : (0:ℚ) < f.rmsMean + 1e-8 := by norm_num; linarith
  have hden3 : (0:ℚ) < f.harmonicEnergy + f.percussiveEnergy + 1e-8 := by norm_num; linarith
  have hc0 : 0 ≤ rawClarity f := div_nonneg h1 hden1.le
  have hd0 : 0 ≤ rawDynamic f := mul_nonneg (div_nonneg h3 hden2.le) (by norm_num)
  have hr0 : 0 ≤ rawRolloff f := div_nonneg h5 (by norm_num)
  have ha0 : 0 ≤ rawArticulation f := mul_nonneg h6 (by norm_num)
  have hh0 : 0 ≤ rawHarmonicity f := div_nonneg h7 hden3.le
  have hh1 : rawHarmonicity f ≤ 1 := by
    unfold rawHarmonicity
    rw [div_le_one hden3]
    linarith
  have hform : enhancedQuality f =
      pyRound2 (min (min (rawClarity f) 1 * 0.25 + min (rawDynamic f) 1 * 0.15 +
        min (rawRolloff f) 1 * 0.2 + min (rawArticulation f) 1 * 0.15 +
        rawHarmonicity f * 0.25) 1) := rfl
  have hspec : min (min (rawClarity f) 1 * 0.25 + min (rawDynamic f) 1 * 0.15 +
      min (rawRolloff f) 1 * 0.2 + min (rawArticulation f) 1 * 0.15 +
      rawHarmonicity f * 0.25) 1 =
      specComposite (rawClarity f) (rawDynamic f) (rawRolloff f)
        (rawArticulation f) (rawHarmonicity f) := by
    have m1 : min (rawClarity f) 1 ≤ 1 := min_le_right _ _
    have m2 : min (rawDynamic f) 1 ≤ 1 := min_le_right _ _
    have m3 : min (rawRolloff f) 1 ≤ 1 := min_le_right _ _
    have m4 : min (rawArticulation f) 1 ≤ 1 := min_le_right _ _
    have n1 : 0 ≤ min (rawClarity f) 1 := le_min hc0 zero_le_one
    have n2 : 0 ≤ min (rawDynamic f) 1 := le_min hd0 zero_le_one
    have n3 : 0 ≤ min (rawRolloff f) 1 := le_min hr0 zero_le_one
    have n4 : 0 ≤ min (rawArticulation f) 1 := le_min ha0 zero_le_one
    have hsum : min (rawClarity f) 1 * 0.25 + min (rawDynamic f) 1 * 0.15 +
        min (rawRolloff f) 1 * 0.2 + min (rawArticulation f) 1 * 0.15 +
        rawHarmonicity f * 0.25 ≤ 1 := by linarith
    rw [min_eq_left hsum]
    unfold specComposite
    rw [clip01_of_nonneg hc0, clip01_of_nonneg hd0, clip01_of_nonneg hr0,
      clip01_of_nonneg ha0, clip01_eq_self hh0 hh1]
    ring
  have hS0 : 0 ≤ specComposite (rawClarity f) (rawDynamic f) (rawRolloff f)
      (rawArticulation f) (rawHarmonicity f) := by
    unfold specComposite
    have := clip01_nonneg (rawClarity f)
    have := clip01_nonneg (rawDynamic f)
    have := clip01_nonneg (rawRolloff f)
    have := clip01_nonneg (rawArticulation f)
    have := clip01_nonneg (rawHarmonicity f)
    linarith
  have hS1 : specComposite (rawClarity f) (rawDynamic f) (rawRolloff f)
      (rawArticulation f) (rawHarmonicity f) ≤ 1 := by
    unfold specComposite
    have := clip01_le_one (rawClarity f)
    have := clip01_le_one (rawDynamic f)
    have := clip01_le_one (rawRolloff f)
    have := clip01_le_one (rawArticulation f)
    have := clip01_le_one (rawHarmonicity f)
    linarith
  have heq : enhancedQuality f =
      pyRound2 (specComposite (rawClarity f) (rawDynamic f) (rawRolloff f)
        (rawArticulation f) (rawHarmonicity f)) := by rw [hform, hspec]
  have hrange := pyRound2_range hS0 hS1
  exact ⟨heq, heq ▸ hrange.1, heq ▸ hrange.2, heq ▸ ⟨pyRound (_ * 100), rfl⟩⟩

theorem enhancedQuality_composite_witness :
    FeaturesNonneg ⟨1, 2, 1, 1, 3000, 1/10, 1, 1⟩ ∧
      (enhancedQuality ⟨1, 2, 1, 1, 3000, 1/10, 1, 1⟩ =
        pyRound2 (specComposite (rawClarity ⟨1, 2, 1, 1, 3000, 1/10, 1, 1⟩)
          (rawDynamic ⟨1, 2, 1, 1, 3000, 1/10, 1, 1⟩)
          (rawRolloff ⟨1, 2, 1, 1, 3000, 1/10, 1, 1⟩)
          (rawArticulation ⟨1, 2, 1, 1, 3000, 1/10, 1, 1⟩)
          (rawHarmonicity ⟨1, 2, 1, 1, 3000, 1/10, 1, 1⟩)) ∧
       0 ≤ enhancedQuality ⟨1, 2, 1, 1, 3000, 1/10, 1, 1⟩ ∧
       enhancedQuality ⟨1, 2, 1, 1, 3000, 1/10, 1, 1⟩ ≤ 1 ∧
       ∃ k : ℤ, enhancedQuality ⟨1, 2, 1, 1, 3000, 1/10, 1, 1⟩ = (k : ℚ) / 100) :=
  ⟨by norm_num [FeaturesNonneg], enhancedQuality_composite _ (by norm_num [FeaturesNonneg])⟩

/-- C5: if any internal step of the spectral-gating noise reduction fails —
the STFT analysis raises (`stftMag … = none`), the energy vector is empty so
`np.percentile` raises, or the reconstruction raises (`recon … = none`) —
then `_apply_noise_reduction` returns its input buffer unchanged instead of
raising. -/
theorem denoise_failure_returns_input (stftMag : List ℚ → Option (List (List ℚ)))
    (recon : List (List ℚ) → Option (List ℚ)) (audio : List ℚ) :
    (stftMag audio = none → applyNoiseReduction stftMag recon audio = audio) ∧
    (∀ frames, stftMag audio = some frames → frames.isEmpty = true →
      applyNoiseReduction stftMag recon audio = audio) ∧
    (∀ frames, stftMag audio = some frames → frames.isEmpty = false →
      recon (spectralGate frames) = none →
      applyNoiseReduction stftMag recon audio = audio) := by
  refine ⟨?_, ?_, ?_⟩
  · intro h
    unfold applyNoiseReduction
    rw [h]
  · intro frames h he
    unfold applyNoiseReduction
    rw [h]
    simp [he]
  · intro frames h he hr
    unfold applyNoiseReduction
    rw [h]
    simp [he, hr]

theorem denoise_failure_returns_input_witness :
    (fun _ : List ℚ => (none : Option (List (List ℚ)))) [1, 2] = none ∧
      applyNoiseReduction (fun _ => none) (fun _ => none) [1, 2] = [1, 2] :=
  ⟨rfl, (denoise_failure_returns_input (fun _ => none) (fun _ => none) [1, 2]).1 rfl⟩

/-! ### The intake pipeline: branch lemmas -/

lemma processAudioSample_short (sm : List ℚ → Option (List (List ℚ)))
    (rc : List (List ℚ) → Option (List ℚ)) (ef : List ℝ → Option Features)
    (audio : List ℚ) (h1 : durationOf audio < 3) :
    processAudioSample sm rc ef audio = .error .tooShort := by
  unfold processAudioSample
  rw [if_pos h1]

lemma processAudioSample_long (sm : List ℚ → Option (List (List ℚ)))
    (rc : List (List ℚ) → Option (List ℚ)) (ef : List ℝ → Option Features)
    (audio : List ℚ) (h1 : ¬ durationOf audio < 3) (h2 : durationOf audio > 300) :
    processAudioSample sm rc ef audio = .error .tooLong := by
  unfold processAudioSample
  rw [if_neg h1, if_pos h2]

lemma processAudioSample_ok (sm : List ℚ → Option (List (List ℚ)))
    (rc : List (List ℚ) → Option (List ℚ)) (ef : List ℝ → Option Features)
    (audio : List ℚ) (h1 : ¬ durationOf audio < 3) (h2 : ¬ durationOf audio > 300) :
    processAudioSample sm rc ef audio =
      .ok ⟨durationOf audio, 22050,
        calculateEnhancedAudioQuality (ef (clipBuffer (preemphasis (rmsNormalize
          (applyNoiseReduction sm rc (trimSilence audio)))))),
        clipBuffer (preemphasis (rmsNormalize
          (applyNoiseReduction sm rc (trimSilence audio))))⟩ := by
  unfold processAudioSample
  rw [if_neg h1, if_neg h2]

/-! ### Clipping bounds -/

lemma npClip_bounds (x : ℝ) : -0.99 ≤ npClip x (-0.99) 0.99 ∧ npClip x (-0.99) 0.99 ≤ 0.99 := by
  unfold npClip
  exact ⟨le_min (le_max_right _ _) (by norm_num), min_le_right _ _⟩

lemma clipBuffer_bounds (l : List ℝ) : ∀ x ∈ clipBuffer l, -0.99 ≤ x ∧ x ≤ 0.99 := by
  intro x hx
  unfold clipBuffer at hx
  obtain ⟨v, -, rfl⟩ := List.mem_map.mp hx
  exact npClip_bounds v

/-- C8: every sample of the canonical buffer emitted by a successful intake
run lies in `[-0.99, 0.99]`; the emitted buffer is exactly the `np.clip` of
the pre-emphasised, normalised, denoised, trimmed audio, i.e. clipping is
applied after all other transformations and no later step modifies the
samples before the buffer is output (scoring only reads it). -/
theorem pipeline_output_clipped (sm : List ℚ → Option (List (List ℚ)))
    (rc : List (List ℚ) → Option (List ℚ)) (ef : List ℝ → Option Features)
    (audio : List ℚ) (r : IntakeResult)
    (h : processAudioSample sm rc ef audio = .ok r) :
    r.buffer = clipBuffer (preemphasis (rmsNormalize
      (applyNoiseReduction sm rc (trimSilence audio)))) ∧
    ∀ x ∈ r.buffer, -0.99 ≤ x ∧ x ≤ 0.99 := by
  by_cases h1 : durationOf audio < 3
  · rw [processAudioSample_short sm rc ef audio h1] at h
    exact absurd h (by simp)
  by_cases h2 : durationOf audio > 300
  · rw [processAudioSample_long sm rc ef audio h1 h2] at h
    exact absurd h (by simp)
  rw [processAudioSample_ok sm rc ef audio h1 h2] at h
  have hr : r = ⟨durationOf audio, 22050,
      calculateEnhancedAudioQuality (ef (clipBuffer (preemphasis (rmsNormalize
        (applyNoiseReduction sm rc (trimSilence audio)))))),
      clipBuffer (preemphasis (rmsNormalize
        (applyNoiseReduction sm rc (trimSilence audio))))⟩ := by
    cases h
    rfl
  subst hr
  exact ⟨rfl, clipBuffer_bounds _⟩

/-! ### Behaviour on an all-zero (all-silent) buffer -/

lemma pad1024_replicate (n : ℕ) :
    pad1024 (List.replicate n (0:ℚ)) = List.replicate (n + 2048) 0 := by
  unfold pad1024
  rw [← List.replicate_add, ← List.replicate_add]
  congr 1
  omega

lemma getD_replicate_zero (m j : ℕ) : (List.replicate m (0:ℚ)).getD j 0 = 0 := by
  rw [List.getD_eq_getElem?_getD, List.getElem?_replicate]
  split <;> rfl

lemma frameMS_replicate (n i : ℕ) : frameMS (List.replicate n (0:ℚ)) i = 0 := by
  unfold frameMS
  rw [pad1024_replicate]
  simp [getD_replicate_zero]

lemma msList_replicate (n : ℕ) :
    msList (List.replicate n (0:ℚ)) =
      List.replicate (numFrames (List.replicate n (0:ℚ))) 0 := by
  unfold msList
  rw [List.map_congr_left (fun i _ => frameMS_replicate n i), List.map_const']
  rw [List.length_range]

lemma trimRef2_replicate (n : ℕ) : trimRef2 (List.replicate n (0:ℚ)) = 0 := by
  unfold trimRef2
  rw [msList_replicate]
  generalize numFrames (List.replicate n (0:ℚ)) = k
  induction k with
  | zero => rfl
  | succ m ih => simp [List.replicate_succ, ih]

lemma nonsilent_replicate (n i : ℕ) : nonsilent (List.replicate n (0:ℚ)) i := by
  unfold nonsilent
  rw [trimRef2_replicate, frameMS_replicate]
  norm_num

lemma nonsilentIndices_replicate (n : ℕ) :
    nonsilentIndices (List.replicate n (0:ℚ)) =
      List.range (numFrames (List.replicate n (0:ℚ))) := by
  unfold nonsilentIndices
  rw [List.filter_eq_self.mpr]
  intro i _
  exact decide_eq_true (nonsilent_replicate n i)

lemma numFrames_replicate (n : ℕ) :
    numFrames (List.replicate n (0:ℚ)) = n / 512 + 1 := by
  unfold numFrames
  rw [List.length_replicate]
  omega

lemma trimSilence_replicate (n : ℕ) :
    trimSilence (List.replicate n (0:ℚ)) = List.replicate n 0 := by
  unfold trimSilence
  rw [nonsilentIndices_replicate, numFrames_replicate]
  have hhead : (List.range (n / 512 + 1)).head? = some 0 := by
    rw [List.range_succ_eq_map]
    rfl
  have hlast : (List.range (n / 512 + 1)).getLast? = some (n / 512) := by
    rw [List.range_succ]
    exact List.getLast?_concat _
  rw [hhead, hlast]
  show ((List.replicate n (0:ℚ)).take
      (min (List.replicate n (0:ℚ)).length ((n / 512 + 1) * 512))).drop (0 * 512) =
    List.replicate n 0
  have hmin : min (List.replicate n (0:ℚ)).length ((n / 512 + 1) * 512) = n := by
    rw [List.length_replicate]
    have h1 := Nat.div_add_mod n 512
    have h2 := Nat.mod_lt n (show 0 < 512 by norm_num)
    omega
  rw [hmin]
  rw [List.take_replicate]
  simp

lemma currentMS_replicate (n : ℕ) : currentMS (List.replicate n (0:ℚ)) = 0 := by
  unfold currentMS
  rw [msList_replicate]
  simp [List.sum_replicate]

lemma rmsNormalize_replicate (n : ℕ) :
    rmsNormalize (List.replicate n (0:ℚ)) = List.replicate n (0:ℝ) := by
  unfold rmsNormalize
  rw [currentMS_replicate]
  rw [show ((0:ℚ) : ℝ) = (0:ℝ) from Rat.cast_zero, Real.sqrt_zero, if_neg (lt_irrefl 0)]
  rw [List.map_replicate]
  congr 1
  exact Rat.cast_zero

lemma preemphasisAux_zero (m : ℕ) :
    preemphasisAux 0 (List.replicate m (0:ℝ)) = List.replicate m 0 := by
  induction m with
  | zero => rfl
  | succ k ih =>
    rw [List.replicate_succ]
    unfold preemphasisAux
    rw [ih]
    rw [show (0:ℝ) - 0.97 * 0 = 0 by norm_num]

lemma preemphasis_replicate (n : ℕ) :
    preemphasis (List.replicate n (0:ℝ)) = List.replicate n 0 := by
  cases n with
  | zero => rfl
  | succ k =>
    rw [List.replicate_succ]
    show preemphasisAux (2 * 0 - (List.replicate k (0:ℝ)).headD 0)
        ((0:ℝ) :: List.replicate k 0) = (0:ℝ) :: List.replicate k 0
    have hh : (List.replicate k (0:ℝ)).headD 0 = 0 := by
      cases k <;> simp [List.replicate_succ]
    rw [hh, show (2:ℝ) * 0 - 0 = 0 by norm_num]
    rw [← List.replicate_succ]
    exact preemphasisAux_zero (k + 1)

lemma clipBuffer_replicate (n : ℕ) :
    clipBuffer (List.replicate n (0:ℝ)) = List.replicate n 0 := by
  unfold clipBuffer npClip
  rw [List.map_replicate]
  congr 1
  rw [show max (0:ℝ) (-0.99) = 0 from max_eq_left (by norm_num)]
  exact min_eq_left (by norm_num)

lemma durationOf_replicate (n : ℕ) :
    durationOf (List.replicate n (0:ℚ)) = (n : ℚ) / 22050 := by
  unfold durationOf
  rw [List.length_replicate]

/-- The full pipeline on a 3-second all-zero buffer with the degrade-path
library stubs: the sample is accepted with score 0.6 (feature extraction
stubbed as failing) and the all-zero canonical buffer. -/
lemma processAudioSample_zeros :
    processAudioSample (fun _ => none) (fun _ => none) (fun _ => none)
      (List.replicate 66150 (0 : ℚ)) =
    .ok ⟨3, 22050, 0.6, List.replicate 66150 (0 : ℝ)⟩ := by
  have hd : durationOf (List.replicate 66150 (0:ℚ)) = 3 := by
    rw [durationOf_replicate]
    norm_num
  rw [processAudioSample_ok _ _ _ _ (by rw [hd]; norm_num) (by rw [hd]; norm_num)]
  rw [trimSilence_replicate]
  have hnr : applyNoiseReduction (fun _ => none) (fun _ => none)
      (List.replicate 66150 (0:ℚ)) = List.replicate 66150 0 := rfl
  rw [hnr, rmsNormalize_replicate, preemphasis_replicate, clipBuffer_replicate, hd]
  rfl

/-- C1 (counterexample to the claim as stated): an all-zero buffer of valid
duration (3 s at 22050 Hz) does not make the pipeline signal any error —
no `EmptyAfterTrimError` exists in the code — instead the run succeeds and
emits the (still all-zero) canonical buffer. -/
theorem silence_not_rejected :
    processAudioSample (fun _ => none) (fun _ => none) (fun _ => none)
      (List.replicate 66150 (0 : ℚ)) =
    .ok ⟨3, 22050, 0.6, List.replicate 66150 (0 : ℝ)⟩ :=
  processAudioSample_zeros

/-- C1 (amended): trimming is relative to the buffer's own peak
(`ref=np.max`), so a buffer that is entirely "below threshold" in absolute
terms — an all-zero buffer — has every frame at 0 dB relative to its peak and
is returned unchanged by the trim step; with a valid duration the pipeline
then accepts it (for any behaviour of the denoise/scoring library calls)
rather than signalling an error. -/
theorem trim_silence_all_zero (sm : List ℚ → Option (List (List ℚ)))
    (rc : List (List ℚ) → Option (List ℚ)) (ef : List ℝ → Option Features)
    (n : ℕ) (hlo : 66150 ≤ n) (hhi : n ≤ 6615000) :
    trimSilence (List.replicate n 0) = List.replicate n 0 ∧
    ∃ r, processAudioSample sm rc ef (List.replicate n 0) = .ok r := by
  refine ⟨trimSilence_replicate n, ?_⟩
  have h1 : ¬ durationOf (List.replicate n (0:ℚ)) < 3 := by
    rw [durationOf_replicate, not_lt, le_div_iff (by norm_num : (0:ℚ) < 22050)]
    have h : (66150 : ℚ) ≤ (n : ℚ) := by exact_mod_cast hlo
    linarith
  have h2 : ¬ durationOf (List.replicate n (0:ℚ)) > 300 := by
    rw [durationOf_replicate, not_lt, div_le_iff (by norm_num : (0:ℚ) < 22050)]
    have h : (n : ℚ) ≤ 6615000 := by exact_mod_cast hhi
    linarith
  exact ⟨_, processAudioSample_ok sm rc ef _ h1 h2⟩

theorem trim_silence_all_zero_witness :
    66150 ≤ 66150 ∧ 66150 ≤ 6615000 ∧
      (trimSilence (List.replicate 66150 (0:ℚ)) = List.replicate 66150 0 ∧
        ∃ r, processAudioSample (fun _ => none) (fun _ => none) (fun _ => none)
          (List.replicate 66150 (0:ℚ)) = .ok r) :=
  ⟨le_rfl, by norm_num,
    trim_silence_all_zero (fun _ => none) (fun _ => none) (fun _ => none)
      66150 le_rfl (by norm_num)⟩

/-- C2: the intake pipeline raises a duration error iff the decoded duration
`len(audio)/22050` lies outside `[3.0, 300.0]` seconds; strictly below 3.0 s
it raises the error whose message names the violated 3-second minimum,
strictly above 300.0 s the error naming the 5-minute maximum, and at any
duration in `[3.0, 300.0]` — the endpoints included — it proceeds through the
pipeline and emits a result. -/
theorem duration_check (sm : List ℚ → Option (List (List ℚ)))
    (rc : List (List ℚ) → Option (List ℚ)) (ef : List ℝ → Option Features)
    (audio : List ℚ) :
    (durationOf audio < 3 → processAudioSample sm rc ef audio = .error .tooShort) ∧
    (300 < durationOf audio → processAudioSample sm rc ef audio = .error .tooLong) ∧
    (3 ≤ durationOf audio → durationOf audio ≤ 300 →
      ∃ r, processAudioSample sm rc ef audio = .ok r) ∧
    ((∃ e, processAudioSample sm rc ef audio = .error e) ↔
      durationOf audio < 3 ∨ 300 < durationOf audio) ∧
    pipelineErrorMessage .tooShort =
      "Audio processing failed: Audio sample too short. Minimum 3 seconds required." ∧
    pipelineErrorMessage .tooLong =
      "Audio processing failed: Audio sample too long. Maximum 5 minutes allowed." := by
  refine ⟨?_, ?_, ?_, ?_, rfl, rfl⟩
  · exact processAudioSample_short sm rc ef audio
  · intro h
    exact processAudioSample_long sm rc ef audio (by linarith) h
  · intro hlo hhi
    exact ⟨_, processAudioSample_ok sm rc ef audio (by linarith) (by linarith)⟩
  · constructor
    · rintro ⟨e, he⟩
      by_contra hcon
      push_neg at hcon
      rw [processAudioSample_ok sm rc ef audio (by linarith [hcon.1]) (by linarith [hcon.2])] at he
      exact absurd he (by simp)
    · rintro (h | h)
      · exact ⟨.tooShort, processAudioSample_short sm rc ef audio h⟩
      · exact ⟨.tooLong, processAudioSample_long sm rc ef audio (by linarith) h⟩

theorem duration_check_witness :
    (durationOf ([] : List ℚ) < 3 ∧
      processAudioSample (fun _ => none) (fun _ => none) (fun _ => none)
        ([] : List ℚ) = .error .tooShort) ∧
    (300 < durationOf (List.replicate 6615001 (0:ℚ)) ∧
      processAudioSample (fun _ => none) (fun _ => none) (fun _ => none)
        (List.replicate 6615001 (0:ℚ)) = .error .tooLong) ∧
    (3 ≤ durationOf (List.replicate 66150 (0:ℚ)) ∧
      durationOf (List.replicate 66150 (0:ℚ)) ≤ 300 ∧
      ∃ r, processAudioSample (fun _ => none) (fun _ => none) (fun _ => none)
        (List.replicate 66150 (0:ℚ)) = .ok r) := by
  have hnil : durationOf ([] : List ℚ) < 3 := by
    unfold durationOf
    norm_num
  have hlong : 300 < durationOf (List.replicate 6615001 (0:ℚ)) := by
    rw [durationOf_replicate]
    norm_num
  have hok1 : 3 ≤ durationOf (List.replicate 66150 (0:ℚ)) := by
    rw [durationOf_replicate]
    norm_num
  have hok2 : durationOf (List.replicate 66150 (0:ℚ)) ≤ 300 := by
    rw [durationOf_replicate]
    norm_num
  refine ⟨⟨hnil, ?_⟩, ⟨hlong, ?_⟩, hok1, hok2, ?_⟩
  · exact (duration_check _ _ _ _).1 hnil
  · exact (duration_check _ _ _ _).2.1 hlong
  · exact (duration_check _ _ _ _).2.2.1 hok1 hok2

theorem pipeline_output_clipped_witness :
    (processAudioSample (fun _ => none) (fun _ => none) (fun _ => none)
        (List.replicate 66150 (0 : ℚ)) =
      .ok ⟨3, 22050, 0.6, List.replicate 66150 (0 : ℝ)⟩) ∧
    ((⟨3, 22050, 0.6, List.replicate 66150 (0 : ℝ)⟩ : IntakeResult).buffer =
        clipBuffer (preemphasis (rmsNormalize (applyNoiseReduction
          (fun _ => none) (fun _ => none)
          (trimSilence (List.replicate 66150 (0 : ℚ)))))) ∧
      ∀ x ∈ (⟨3, 22050, 0.6, List.replicate 66150 (0 : ℝ)⟩ : IntakeResult).buffer,
        -0.99 ≤ x ∧ x ≤ 0.99) :=
  ⟨processAudioSample_zeros,
    pipeline_output_clipped (fun _ => none) (fun _ => none) (fun _ => none)
      (List.replicate 66150 (0 : ℚ)) _ processAudioSample_zeros⟩

/-! ### RMS normalisation: what the scaling actually achieves -/

lemma pad1024_single_getD (j : ℕ) :
    (pad1024 [(1:ℚ)]).getD j 0 = if j = 1024 then 1 else 0 := by
  have hp : pad1024 [(1:ℚ)] = List.replicate 1024 0 ++ (1 :: List.replicate 1024 0) := by
    unfold pad1024
    rw [List.append_assoc]
    rfl
  rw [hp, List.getD_eq_getElem?_getD, List.getElem?_append, List.length_replicate]
  by_cases h : j < 1024
  · rw [if_pos h, List.getElem?_replicate, if_pos h, if_neg (by omega)]
    rfl
  · rw [if_neg h]
    by_cases h2 : j = 1024
    · subst h2
      rw [Nat.sub_self, List.getElem?_cons_zero, if_pos rfl]
      rfl
    · obtain ⟨k, hk⟩ : ∃ k, j - 1024 = k + 1 := ⟨j - 1025, by omega⟩
      rw [hk, List.getElem?_cons_succ, List.getElem?_replicate, if_neg h2]
      split <;> rfl

lemma frameMS_single : frameMS [(1:ℚ)] 0 = 1 / 2048 := by
  unfold frameMS
  have h : ∀ j ∈ Finset.range 2048,
      (pad1024 [(1:ℚ)]).getD (0 * 512 + j) 0 ^ 2 =
        if j = 1024 then (1:ℚ) else 0 := by
    intro j _
    rw [zero_mul, zero_add, pad1024_single_getD]
    split <;> norm_num
  rw [Finset.sum_congr rfl h, Finset.sum_ite_eq' (Finset.range 2048) 1024 (fun _ => (1:ℚ))]
  rw [if_pos (Finset.mem_range.mpr (by norm_num))]

lemma currentMS_single : currentMS [(1:ℚ)] = 1 / 2048 := by
  have h1 : msList [(1:ℚ)] = [frameMS [(1:ℚ)] 0] := by
    unfold msList numFrames
    rfl
  unfold currentMS
  rw [h1, frameMS_single]
  norm_num

lemma getD_map_cast (l : List ℚ) (i : ℕ) :
    (l.map (Rat.cast : ℚ → ℝ)).getD i 0 = ((l.getD i 0 : ℚ) : ℝ) := by
  rw [List.getD_eq_getElem?_getD, List.getD_eq_getElem?_getD, List.getElem?_map]
  cases l[i]? <;> simp

lemma pad1024R_cast (y : List ℚ) :
    pad1024R (y.map (Rat.cast : ℚ → ℝ)) = (pad1024 y).map Rat.cast := by
  unfold pad1024R pad1024
  rw [List.map_append, List.map_append, List.map_replicate]
  norm_num

lemma frameMSR_cast (y : List ℚ) (i : ℕ) :
    frameMSR (y.map (Rat.cast : ℚ → ℝ)) i = ((frameMS y i : ℚ) : ℝ) := by
  unfold frameMSR frameMS
  rw [pad1024R_cast]
  have hs : ∀ j ∈ Finset.range 2048,
      ((pad1024 y).map (Rat.cast : ℚ → ℝ)).getD (i * 512 + j) 0 ^ 2 =
        (((pad1024 y).getD (i * 512 + j) 0 : ℚ) : ℝ) ^ 2 := by
    intro j _
    rw [getD_map_cast]
  rw [Finset.sum_congr rfl hs]
  push_cast
  rfl

lemma msListR_cast (y : List ℚ) :
    msListR (y.map (Rat.cast : ℚ → ℝ)) = (msList y).map Rat.cast := by
  unfold msListR msList numFrames
  rw [List.length_map, List.map_map]
  exact List.map_congr_left fun i _ => frameMSR_cast y i

lemma currentMSR_cast (y : List ℚ) :
    currentMSR (y.map (Rat.cast : ℚ → ℝ)) = ((currentMS y : ℚ) : ℝ) := by
  unfold currentMSR currentMS
  rw [msListR_cast, List.length_map]
  have h : ((msList y).map (Rat.cast : ℚ → ℝ)).sum = (((msList y).sum : ℚ) : ℝ) := by
    induction msList y with
    | nil => simp
    | cons a t ih =>
      rw [List.map_cons, List.sum_cons, List.sum_cons, ih]
      exact (Rat.cast_add _ _).symm
  rw [h]
  push_cast
  rfl

lemma getD_map_mul (l : List ℝ) (c : ℝ) (i : ℕ) :
    (l.map (fun v => v * c)).getD i 0 = l.getD i 0 * c := by
  rw [List.getD_eq_getElem?_getD, List.getD_eq_getElem?_getD, List.getElem?_map]
  cases l[i]? <;> simp

lemma pad1024R_map_mul (y : List ℝ) (c : ℝ) :
    pad1024R (y.map (fun v => v * c)) = (pad1024R y).map (fun v => v * c) := by
  unfold pad1024R
  rw [List.map_append, List.map_append, List.map_replicate]
  norm_num

lemma frameMSR_map_mul (y : List ℝ) (c : ℝ) (i : ℕ) :
    frameMSR (y.map (fun v => v * c)) i = c ^ 2 * frameMSR y i := by
  unfold frameMSR
  rw [pad1024R_map_mul]
  have h : ∀ j ∈ Finset.range 2048,
      ((pad1024R y).map (fun v => v * c)).getD (i * 512 + j) 0 ^ 2 =
        c ^ 2 * ((pad1024R y).getD (i * 512 + j) 0) ^ 2 := by
    intro j _
    rw [getD_map_mul]
    ring
  rw [Finset.sum_congr rfl h, ← Finset.mul_sum]
  ring

lemma msListR_map_mul (y : List ℝ) (c : ℝ) :
    msListR (y.map (fun v => v * c)) = (msListR y).map (fun v => c ^ 2 * v) := by
  unfold msListR
  rw [List.length_map, List.map_map]
  exact List.map_congr_left fun i _ => frameMSR_map_mul y c i

lemma currentMSR_map_mul (y : List ℝ) (c : ℝ) :
    currentMSR (y.map (fun v => v * c)) = c ^ 2 * currentMSR y := by
  unfold currentMSR
  rw [msListR_map_mul, List.length_map]
  have h : ((msListR y).map (fun v => c ^ 2 * v)).sum = c ^ 2 * (msListR y).sum := by
    induction msListR y with
    | nil => simp
    | cons a t ih =>
      simp only [List.map_cons, List.sum_cons, ih]
      ring
  rw [h]
  ring

lemma frameMS_nonneg (y : List ℚ) (i : ℕ) : 0 ≤ frameMS y i := by
  unfold frameMS
  exact div_nonneg (Finset.sum_nonneg fun j _ => sq_nonneg _) (by norm_num)

lemma currentMS_nonneg (y : List ℚ) : 0 ≤ currentMS y := by
  unfold currentMS
  refine div_nonneg (List.sum_nonneg fun a ha => ?_) (Nat.cast_nonneg _)
  unfold msList at ha
  obtain ⟨i, -, rfl⟩ := List.mem_map.mp ha
  exact frameMS_nonneg y i

/-- C7 (amended): when `current_rms > 0` the step scales by
`0.2 / current_rms`, where `current_rms` is the windowed frame-RMS aggregate
`sqrt(mean(librosa.feature.rms(y)²))`; re-measuring that same statistic on the
scaled buffer yields exactly `0.2` (its square equals `0.2²`), while the raw
sample RMS in general differs from 0.2 (see the counterexample).  When
`current_rms = 0` the buffer is returned unchanged — no scaling, no
division. -/
theorem rms_normalize_frame_rms (y : List ℚ) :
    (¬ 0 < Real.sqrt ((currentMS y : ℝ)) →
      rmsNormalize y = y.map (fun v => (Rat.cast v : ℝ))) ∧
    (0 < Real.sqrt ((currentMS y : ℝ)) →
      currentMSR (rmsNormalize y) = 0.2 ^ 2) := by
  constructor
  · intro h
    unfold rmsNormalize
    rw [if_neg h]
  · intro h
    have hms : (0:ℝ) < ((currentMS y : ℝ)) := by
      have h0 : (0:ℝ) ≤ ((currentMS y : ℝ)) := by exact_mod_cast currentMS_nonneg y
      rcases h0.lt_or_eq with h1 | h1
      · exact h1
      · rw [← h1, Real.sqrt_zero] at h
        exact absurd h (lt_irrefl 0)
    unfold rmsNormalize
    rw [if_pos h]
    have hmap : y.map (fun v => (Rat.cast v : ℝ) * (0.2 / Real.sqrt ((currentMS y : ℝ)))) =
        (y.map (Rat.cast : ℚ → ℝ)).map
          (fun v => v * (0.2 / Real.sqrt ((currentMS y : ℝ)))) := by
      rw [List.map_map]
      rfl
    rw [hmap, currentMSR_map_mul, currentMSR_cast]
    rw [div_pow, Real.sq_sqrt hms.le]
    rw [div_mul_cancel₀ _ hms.ne']

theorem rms_normalize_frame_rms_witness :
    0 < Real.sqrt ((currentMS [(1:ℚ)] : ℝ)) ∧
      currentMSR (rmsNormalize [(1:ℚ)]) = 0.2 ^ 2 := by
  have hpos : 0 < Real.sqrt ((currentMS [(1:ℚ)] : ℝ)) := by
    rw [currentMS_single, Real.sqrt_pos]
    norm_num
  exact ⟨hpos, (rms_normalize_frame_rms [(1:ℚ)]).2 hpos⟩

/-- C7 (counterexample to the claim as stated): on the buffer `[1]` the
measured `current_rms` is positive, yet the normalised buffer's raw
root-mean-square is not `0.2` — the step normalises the windowed frame-RMS
statistic, which on short or edge-heavy content differs from the sample
RMS because of the zero padding of the centred frames. -/
theorem rms_normalize_not_sample_rms :
    0 < Real.sqrt ((currentMS [(1:ℚ)] : ℝ)) ∧
      Real.sqrt (meanSquareR (rmsNormalize [(1:ℚ)])) ≠ 0.2 := by
  have hpos : 0 < Real.sqrt ((currentMS [(1:ℚ)] : ℝ)) := by
    rw [currentMS_single, Real.sqrt_pos]
    norm_num
  refine ⟨hpos, ?_⟩
  have h1 : rmsNormalize [(1:ℚ)] =
      [((1:ℚ):ℝ) * (0.2 / Real.sqrt ((currentMS [(1:ℚ)] : ℝ)))] := by
    unfold rmsNormalize
    rw [if_pos hpos]
    rfl
  have hmsq : meanSquareR (rmsNormalize [(1:ℚ)]) = 2048 * 0.2 ^ 2 := by
    rw [h1]
    unfold meanSquareR
    simp only [List.map_cons, List.map_nil, List.sum_cons, List.sum_nil,
      List.length_singleton]
    rw [currentMS_single]
    rw [mul_pow, div_pow, Real.sq_sqrt (by positivity : (0:ℝ) ≤ ((1/2048 : ℚ) : ℝ))]
    push_cast
    norm_num
  intro heq
  have h2 : meanSquareR (rmsNormalize [(1:ℚ)]) = 0.2 ^ 2 := by
    calc meanSquareR (rmsNormalize [(1:ℚ)])
        = Real.sqrt (meanSquareR (rmsNormalize [(1:ℚ)])) ^ 2 :=
          (Real.sq_sqrt (by rw [hmsq]; norm_num)).symm
      _ = 0.2 ^ 2 := by rw [heq]
  rw [hmsq] at h2
  norm_num at h2

/-! ### Text cleaner: every substitution shrinks, so `clean_text` never grows -/

lemma countWhile_le (p : Char → Bool) (s : List Char) : countWhile p s ≤ s.length := by
  unfold countWhile
  induction s with
  | nil => exact le_rfl
  | cons c rest ih =>
    rw [List.takeWhile_cons]
    split
    · rw [List.length_cons, List.length_cons]
      omega
    · exact Nat.zero_le _

lemma head?_drop_lt {s : List Char} {k : ℕ} {c : Char} (h : (s.drop k).head? = some c) :
    k < s.length := by
  by_contra hc
  push_neg at hc
  rw [List.drop_eq_nil_of_le hc] at h
  exact Option.noConfusion h

lemma isPrefixOf_length_le {p s : List Char} (h : p.isPrefixOf s = true) :
    p.length ≤ s.length :=
  (List.isPrefixOf_iff_prefix.mp h).length_le

lemma lazyFind_le {content : Char → Bool} {post s : List Char} {k : ℕ}
    (h : lazyFind content post s = some k) : k + post.length ≤ s.length := by
  induction s generalizing k with
  | nil =>
    unfold lazyFind at h
    split at h
    · next he =>
      injection h with h2
      subst h2
      simp [List.isEmpty_iff.mp he]
    · exact Option.noConfusion h
  | cons c rest ih =>
    unfold lazyFind at h
    split at h
    · next hp =>
      injection h with h2
      subst h2
      simpa using isPrefixOf_length_le hp
    · split at h
      · cases hk : lazyFind content post rest with
        | none => rw [hk] at h; exact Option.noConfusion h
        | some k2 =>
          rw [hk, Option.map_some'] at h
          injection h with h2
          subst h2
          have := ih hk
          rw [List.length_cons]
          omega
      · exact Option.noConfusion h

lemma greedyWsEol_le {s : List Char} {j : ℕ} (h : greedyWsEol s = some j) : j ≤ s.length := by
  unfold greedyWsEol at h
  have hm := List.mem_of_find?_eq_some h
  rw [List.mem_reverse, List.mem_range] at hm
  have := countWhile_le isSpace s
  omega

lemma wsDotEol_le {u : List Char} {t : ℕ} (h : wsDotEol u = some t) : t ≤ u.length := by
  unfold wsDotEol at h
  cases hf : (((List.range (countWhile isSpace u)).map (· + 1)).reverse.find?
      (fun a => 1 ≤ countWhile (· != '\n') (u.drop a))) with
  | none => rw [hf] at h; exact Option.noConfusion h
  | some a =>
    rw [hf, Option.map_some'] at h
    injection h with h2
    subst h2
    have hm := List.mem_of_find?_eq_some hf
    rw [List.mem_reverse, List.mem_map] at hm
    obtain ⟨a0, ha0, rfl⟩ := hm
    rw [List.mem_range] at ha0
    have h1 := countWhile_le isSpace u
    have h2 := countWhile_le (· != '\n') (u.drop (a0 + 1))
    rw [List.length_drop] at h2
    omega

lemma pair_inj {X n : ℕ} {lit repl : List Char}
    (h : (some (X, lit) : Option (ℕ × List Char)) = some (n, repl)) :
    n = X ∧ repl = lit := by
  injection h with h2
  obtain ⟨h3, h4⟩ := (Prod.mk.injEq _ _ _ _).mp h2
  exact ⟨h3.symm, h4.symm⟩

lemma pair_inj' {X n : ℕ} {lit repl : List Char} (h : (X, lit) = (n, repl)) :
    n = X ∧ repl = lit := by
  obtain ⟨h3, h4⟩ := (Prod.mk.injEq _ _ _ _).mp h
  exact ⟨h3.symm, h4.symm⟩

lemma map_eq_some {o : Option ℕ} {f : ℕ → ℕ × List Char} {v : ℕ × List Char}
    (h : o.map f = some v) : ∃ k, o = some k ∧ f k = v := by
  cases o with
  | none => exact Option.noConfusion h
  | some k =>
    rw [Option.map_some'] at h
    injection h with h2
    exact ⟨k, rfl, h2⟩

lemma pairM_shrink (d : Char) {s : List Char} {n : ℕ} {repl : List Char}
    (h : pairM d s = some (n, repl)) : repl.length ≤ n ∧ n ≤ s.length := by
  unfold pairM at h
  split at h
  · next hp =>
    obtain ⟨k, hk, hf⟩ := map_eq_some h
    obtain ⟨rfl, rfl⟩ := pair_inj' hf
    constructor
    · rw [List.length_take]
      exact le_trans (min_le_left _ _) (by omega)
    · have hlf := lazyFind_le hk
      simp only [List.length_cons, List.length_nil] at hlf
      rw [List.length_drop] at hlf
      have hp2 := isPrefixOf_length_le hp
      simp only [List.length_cons, List.length_nil] at hp2
      omega
  · exact Option.noConfusion h

lemma singleM_shrink (d : Char) {s : List Char} {n : ℕ} {repl : List Char}
    (h : singleM d s = some (n, repl)) : repl.length ≤ n ∧ n ≤ s.length := by
  unfold singleM at h
  split at h
  · next hp =>
    obtain ⟨k, hk, hf⟩ := map_eq_some h
    obtain ⟨rfl, rfl⟩ := pair_inj' hf
    constructor
    · rw [List.length_take]
      exact le_trans (min_le_left _ _) (by omega)
    · have hlf := lazyFind_le hk
      simp only [List.length_cons, List.length_nil] at hlf
      rw [List.length_drop] at hlf
      have hp2 := isPrefixOf_length_le hp
      simp only [List.length_cons, List.length_nil] at hp2
      omega
  · exact Option.noConfusion h

lemma headerM_shrink : Shrinking headerM := by
  intro b s n repl h
  unfold headerM at h
  dsimp only [] at h
  split at h
  · exact Option.noConfusion h
  · split at h
    · obtain ⟨rfl, rfl⟩ := pair_inj h
      refine ⟨Nat.zero_le _, ?_⟩
      have h1 := countWhile_le (· == '#') s
      have h2 := countWhile_le isSpace (s.drop (countWhile (· == '#') s))
      rw [List.length_drop] at h2
      omega
    · exact Option.noConfusion h

lemma boldM_shrink : Shrinking boldM := by
  intro b s n repl h
  unfold boldM at h
  split at h
  · next r heq =>
    injection h with h2
    subst h2
    exact pairM_shrink '*' heq
  · exact pairM_shrink '_' h

lemma italicM_shrink : Shrinking italicM := by
  intro b s n repl h
  unfold italicM at h
  split at h
  · next r heq =>
    injection h with h2
    subst h2
    exact singleM_shrink '*' heq
  · exact singleM_shrink '_' h

lemma strikeM_shrink : Shrinking strikeM := by
  intro b s n repl h
  exact pairM_shrink '~' h

lemma inlineCodeM_shrink : Shrinking inlineCodeM := by
  intro b s n repl h
  unfold inlineCodeM at h
  dsimp only [] at h
  split at h
  · next c rest =>
    split at h
    · split at h
      · next hcond =>
        obtain ⟨rfl, rfl⟩ := pair_inj h
        rw [Bool.and_eq_true] at hcond
        constructor
        · rw [List.length_take]
          exact le_trans (min_le_left _ _) (by omega)
        · have hlt := head?_drop_lt (eq_of_beq hcond.2)
          rw [List.length_cons]
          omega
      · exact Option.noConfusion h
    · exact Option.noConfusion h
  · exact Option.noConfusion h

lemma codeBlockM_shrink : Shrinking codeBlockM := by
  intro b s n repl h
  unfold codeBlockM at h
  split at h
  · next hp =>
    obtain ⟨k, hk, hf⟩ := map_eq_some h
    obtain ⟨rfl, rfl⟩ := pair_inj' hf
    refine ⟨Nat.zero_le _, ?_⟩
    have hlf := lazyFind_le hk
    simp only [List.length_cons, List.length_nil] at hlf
    rw [List.length_drop] at hlf
    have hp2 := isPrefixOf_length_le hp
    simp only [List.length_cons, List.length_nil] at hp2
    omega
  · exact Option.noConfusion h

lemma blockquoteM_shrink : Shrinking blockquoteM := by
  intro b s n repl h
  unfold blockquoteM at h
  dsimp only [] at h
  split at h
  · next rest =>
    split at h
    · obtain ⟨rfl, rfl⟩ := pair_inj h
      refine ⟨Nat.zero_le _, ?_⟩
      have := countWhile_le isSpace rest
      rw [List.length_cons]
      omega
    · exact Option.noConfusion h
  · exact Option.noConfusion h

lemma hruleM_shrink : Shrinking hruleM := by
  intro b s n repl h
  unfold hruleM at h
  dsimp only [] at h
  have main : ∀ (pat : List Char), pat.isPrefixOf s = true → pat.length = 3 →
      ∀ {n' : ℕ} {repl' : List Char},
      (greedyWsEol (s.drop 3)).map (fun j => (3 + j, ([] : List Char))) = some (n', repl') →
      repl'.length ≤ n' ∧ n' ≤ s.length := by
    intro pat hp hl n' repl' h'
    obtain ⟨j, hj, hf⟩ := map_eq_some h'
    obtain ⟨rfl, rfl⟩ := pair_inj' hf
    refine ⟨Nat.zero_le _, ?_⟩
    have h1 := greedyWsEol_le hj
    rw [List.length_drop] at h1
    have h2 := isPrefixOf_length_le hp
    omega
  split at h
  · exact Option.noConfusion h
  · split at h
    · next r heq =>
      injection h with h2
      subst h2
      split at heq
      · next hp => exact main _ hp rfl heq
      · exact Option.noConfusion heq
    · split at h
      · next r heq =>
        injection h with h2
        subst h2
        split at heq
        · next hp => exact main _ hp rfl heq
        · exact Option.noConfusion heq
      · split at h
        · next hp => exact main _ hp rfl h
        · exact Option.noConfusion h

lemma listMarkerM_shrink : Shrinking listMarkerM := by
  intro b s n repl h
  unfold listMarkerM at h
  dsimp only [] at h
  split at h
  · exact Option.noConfusion h
  · split at h
    · next c hc =>
      split at h
      · split at h
        · obtain ⟨rfl, rfl⟩ := pair_inj h
          refine ⟨Nat.zero_le _, ?_⟩
          have h1 := head?_drop_lt hc
          have h2 := countWhile_le isSpace (s.drop (countWhile isSpace s + 1))
          rw [List.length_drop] at h2
          omega
        · exact Option.noConfusion h
      · exact Option.noConfusion h
    · exact Option.noConfusion h

lemma numberedM_shrink : Shrinking numberedM := by
  intro b s n repl h
  unfold numberedM at h
  dsimp only [] at h
  split at h
  · exact Option.noConfusion h
  · split at h
    · next hcond =>
      split at h
      · obtain ⟨rfl, rfl⟩ := pair_inj h
        rw [Bool.and_eq_true] at hcond
        refine ⟨Nat.zero_le _, ?_⟩
        have h1 := head?_drop_lt (eq_of_beq hcond.2)
        have h2 := countWhile_le isSpace
          (s.drop (countWhile isSpace s +
            countWhile (fun c => c.isDigit) (s.drop (countWhile isSpace s)) + 1))
        rw [List.length_drop] at h2
        omega
      · exact Option.noConfusion h
    · exact Option.noConfusion h

lemma tableSepOff_le (s : List Char) : tableSepOff s ≤ s.length := by
  have hw := countWhile_le isSpace s
  have hd : tableSepDashes s ≤ s.length - (countWhile isSpace s + tableSepC1 s) := by
    unfold tableSepDashes
    have h := countWhile_le (· == '-') (s.drop (countWhile isSpace s + tableSepC1 s))
    rw [List.length_drop] at h
    exact h
  have hc1 : tableSepC1 s = 0 ∨ (tableSepC1 s = 1 ∧ countWhile isSpace s < s.length) := by
    unfold tableSepC1
    dsimp only []
    split
    · next hcond =>
      rw [Bool.and_eq_true] at hcond
      exact Or.inr ⟨rfl, head?_drop_lt (eq_of_beq hcond.1)⟩
    · exact Or.inl rfl
  unfold tableSepOff
  dsimp only []
  split
  · next hcol =>
    exact head?_drop_lt (eq_of_beq hcol)
  · rcases hc1 with h0 | ⟨h1, hlt⟩ <;> omega

lemma tableSepM_shrink : Shrinking tableSepM := by
  intro b s n repl h
  unfold tableSepM at h
  split at h
  · exact Option.noConfusion h
  · split at h
    · obtain ⟨j, hj, hf⟩ := map_eq_some h
      obtain ⟨rfl, rfl⟩ := pair_inj' hf
      refine ⟨Nat.zero_le _, ?_⟩
      have h1 := greedyWsEol_le hj
      rw [List.length_drop] at h1
      have h2 := tableSepOff_le s
      omega
    · exact Option.noConfusion h

lemma mdLinkM_shrink : Shrinking mdLinkM := by
  intro b s n repl h
  unfold mdLinkM at h
  dsimp only [] at h
  split at h
  · next rest =>
    split at h
    · split at h
      · next hcond2 =>
        obtain ⟨rfl, rfl⟩ := pair_inj h
        rw [Bool.and_eq_true] at hcond2
        constructor
        · rw [List.length_take]
          exact le_trans (min_le_left _ _) (by omega)
        · have h1 := head?_drop_lt (eq_of_beq hcond2.2)
          rw [List.length_drop] at h1
          rw [List.length_cons]
          omega
      · exact Option.noConfusion h
    · exact Option.noConfusion h
  · exact Option.noConfusion h

lemma refLinkM_shrink : Shrinking refLinkM := by
  intro b s n repl h
  unfold refLinkM at h
  dsimp only [] at h
  split at h
  · next rest =>
    split at h
    · split at h
      · next hcond2 =>
        obtain ⟨rfl, rfl⟩ := pair_inj h
        constructor
        · rw [List.length_take]
          exact le_trans (min_le_left _ _) (by omega)
        · have h1 := head?_drop_lt (eq_of_beq hcond2)
          rw [List.length_drop] at h1
          rw [List.length_cons]
          omega
      · exact Option.noConfusion h
    · exact Option.noConfusion h
  · exact Option.noConfusion h

lemma refDefM_shrink : Shrinking refDefM := by
  intro b s n repl h
  unfold refDefM at h
  dsimp only [] at h
  split at h
  · exact Option.noConfusion h
  · split at h
    · next c hc =>
      split at h
      · next hcond =>
        obtain ⟨t, ht, hf⟩ := map_eq_some h
        obtain ⟨rfl, rfl⟩ := pair_inj' hf
        rw [Bool.and_eq_true] at hcond
        refine ⟨Nat.zero_le _, ?_⟩
        have h1 := wsDotEol_le ht
        rw [List.length_drop, List.length_drop] at h1
        have h2 := head?_drop_lt (eq_of_beq hcond.2)
        rw [List.length_drop] at h2
        have h3 := head?_drop_lt hc
        omega
      · exact Option.noConfusion h
    · exact Option.noConfusion h

lemma urlM_shrink : Shrinking urlM := by
  intro b s n repl h
  unfold urlM at h
  dsimp only [] at h
  have main : ∀ pre : ℕ, [':', '/', '/'].isPrefixOf (s.drop pre) = true →
      ∀ {n' : ℕ} {repl' : List Char},
      (some (pre + 3 + countWhile (fun c => !isSpace c) (s.drop (pre + 3)),
        ([] : List Char)) : Option (ℕ × List Char)) = some (n', repl') →
      repl'.length ≤ n' ∧ n' ≤ s.length := by
    intro pre hp n' repl' h'
    obtain ⟨rfl, rfl⟩ := pair_inj h'
    refine ⟨Nat.zero_le _, ?_⟩
    have h1 := isPrefixOf_length_le hp
    rw [List.length_drop] at h1
    simp only [List.length_cons, List.length_nil] at h1
    have h2 := countWhile_le (fun c => !isSpace c) (s.drop (pre + 3))
    rw [List.length_drop] at h2
    omega
  split at h
  · split at h
    · split at h
      · next r heq =>
        injection h with h2
        subst h2
        split at heq
        · next hp5 =>
          split at heq
          · exact main 5 hp5 heq
          · exact Option.noConfusion heq
        · exact Option.noConfusion heq
      · split at h
        · next hp4 =>
          split at h
          · exact main 4 hp4 h
          · exact Option.noConfusion h
        · exact Option.noConfusion h
    · split at h
      · next hp4 =>
        split at h
        · exact main 4 hp4 h
        · exact Option.noConfusion h
      · exact Option.noConfusion h
  · exact Option.noConfusion h

lemma emailM_shrink : Shrinking emailM := by
  intro b s n repl h
  unfold emailM at h
  dsimp only [] at h
  split at h
  · next hcond =>
    obtain ⟨d, hd, hf⟩ := map_eq_some h
    obtain ⟨rfl, rfl⟩ := pair_inj' hf
    rw [Bool.and_eq_true] at hcond
    refine ⟨Nat.zero_le _, ?_⟩
    have hat := head?_drop_lt (eq_of_beq hcond.2)
    have hp := List.find?_some hd
    rw [Bool.and_eq_true] at hp
    have hdot := head?_drop_lt (eq_of_beq hp.1)
    rw [List.length_drop] at hdot
    have ha := countWhile_le (fun c => c.isAlpha)
      ((s.drop (countWhile isLocalChar s + 1)).drop (d + 1))
    rw [List.length_drop, List.length_drop] at ha
    omega
  · exact Option.noConfusion h

lemma bracketsM_shrink : Shrinking bracketsM := by
  intro b s n repl h
  unfold bracketsM at h
  dsimp only [] at h
  split at h
  · next rest =>
    split at h
    · next hcond =>
      obtain ⟨rfl, rfl⟩ := pair_inj h
      refine ⟨Nat.zero_le _, ?_⟩
      have h1 := head?_drop_lt (eq_of_beq hcond)
      rw [List.length_cons]
      omega
    · exact Option.noConfusion h
  · exact Option.noConfusion h

lemma parensM_shrink : Shrinking parensM := by
  intro b s n repl h
  unfold parensM at h
  dsimp only [] at h
  split at h
  · next rest =>
    split at h
    · next hcond =>
      obtain ⟨rfl, rfl⟩ := pair_inj h
      refine ⟨Nat.zero_le _, ?_⟩
      have h1 := head?_drop_lt (eq_of_beq hcond)
      rw [List.length_cons]
      omega
    · exact Option.noConfusion h
  · exact Option.noConfusion h

lemma wsRunM_shrink : Shrinking wsRunM := by
  intro b s n repl h
  unfold wsRunM at h
  dsimp only [] at h
  split at h
  · next h1 =>
    obtain ⟨rfl, rfl⟩ := pair_inj h
    exact ⟨by simpa using h1, countWhile_le isSpace s⟩
  · exact Option.noConfusion h

lemma newlines3M_shrink : Shrinking newlines3M := by
  intro b s n repl h
  unfold newlines3M at h
  dsimp only [] at h
  split at h
  · next h1 =>
    obtain ⟨rfl, rfl⟩ := pair_inj h
    refine ⟨by simp; omega, countWhile_le (· == '\n') s⟩
  · exact Option.noConfusion h

lemma spaceBeforePunctM_shrink : Shrinking spaceBeforePunctM := by
  intro b s n repl h
  unfold spaceBeforePunctM at h
  dsimp only [] at h
  split at h
  · split at h
    · next c hc =>
      split at h
      · obtain ⟨rfl, rfl⟩ := pair_inj h
        refine ⟨by simp, ?_⟩
        exact head?_drop_lt hc
      · exact Option.noConfusion h
    · exact Option.noConfusion h
  · exact Option.noConfusion h

lemma punctSpaceM_shrink : Shrinking punctSpaceM := by
  intro b s n repl h
  unfold punctSpaceM at h
  dsimp only [] at h
  split at h
  · next c rest =>
    split at h
    · split at h
      · next h1 =>
        obtain ⟨rfl, rfl⟩ := pair_inj h
        refine ⟨by simp; omega, ?_⟩
        have := countWhile_le isSpace rest
        rw [List.length_cons]
        omega
      · exact Option.noConfusion h
    · exact Option.noConfusion h
  · exact Option.noConfusion h

lemma reSubAux_length {m : Matcher} (hm : Shrinking m) :
    ∀ fuel b s, (reSubAux m fuel b s).length ≤ s.length := by
  intro fuel
  induction fuel with
  | zero =>
    intro b s
    exact le_rfl
  | succ f ih =>
    intro b s
    cases s with
    | nil => exact le_rfl
    | cons c rest =>
      simp only [reSubAux]
      split
      · next nn repl heq =>
        rw [List.length_append, List.length_cons]
        obtain ⟨h1, h1b⟩ := hm _ _ _ _ heq
        rw [List.length_cons] at h1b
        have h2 := ih (((c :: rest).getD nn ' ') == '\n') (rest.drop nn)
        rw [List.length_drop] at h2
        omega
      · rw [List.length_cons, List.length_cons]
        exact Nat.succ_le_succ (ih (c == '\n') rest)

lemma reSub_length {m : Matcher} (hm : Shrinking m) (s : List Char) :
    (reSub m s).length ≤ s.length :=
  reSubAux_length hm s.length true s

lemma length_dropWhile_le (p : Char → Bool) (l : List Char) :
    (l.dropWhile p).length ≤ l.length := by
  induction l with
  | nil => exact le_rfl
  | cons c rest ih =>
    rw [List.dropWhile_cons]
    split
    · rw [List.length_cons]
      omega
    · exact le_rfl

lemma pyStrip_length (s : List Char) : (pyStrip s).length ≤ s.length := by
  unfold pyStrip
  rw [List.length_reverse]
  calc ((s.dropWhile isSpace).reverse.dropWhile isSpace).length
      ≤ (s.dropWhile isSpace).reverse.length := length_dropWhile_le _ _
    _ = (s.dropWhile isSpace).length := List.length_reverse _
    _ ≤ s.length := length_dropWhile_le _ _

lemma joinLines_length :
    ∀ L : List (List Char), (joinLines L).length = (L.map List.length).sum + (L.length - 1) := by
  intro L
  induction L with
  | nil => rfl
  | cons l ls ih =>
    cases ls with
    | nil => simp [joinLines]
    | cons l2 ls2 =>
      show (l ++ '\n' :: joinLines (l2 :: ls2)).length = _
      rw [List.length_append, List.length_cons, ih]
      simp only [List.map_cons, List.sum_cons, List.length_cons]
      omega

lemma sum_map_filter_le (f : List Char → ℕ) (p : List Char → Bool) :
    ∀ L : List (List Char), ((L.filter p).map f).sum ≤ (L.map f).sum := by
  intro L
  induction L with
  | nil => exact le_rfl
  | cons l ls ih =>
    rw [List.filter_cons]
    split
    · simp only [List.map_cons, List.sum_cons]
      omega
    · simp only [List.map_cons, List.sum_cons]
      omega

lemma sum_map_pyStrip_le :
    ∀ L : List (List Char), ((L.map pyStrip).map List.length).sum ≤ (L.map List.length).sum := by
  intro L
  induction L with
  | nil => exact le_rfl
  | cons l ls ih =>
    simp only [List.map_cons, List.sum_cons]
    have := pyStrip_length l
    omega

lemma joinLines_eq_intercalate :
    ∀ L : List (List Char), joinLines L = List.intercalate ['\n'] L := by
  intro L
  induction L with
  | nil => rfl
  | cons l ls ih =>
    cases ls with
    | nil => simp [joinLines, List.intercalate]
    | cons l2 ls2 =>
      show l ++ '\n' :: joinLines (l2 :: ls2) = _
      rw [ih]
      simp [List.intercalate]

lemma stripLines_length (s : List Char) : (stripLines s).length ≤ s.length := by
  unfold stripLines
  have hidentity : s.length = (joinLines (s.splitOn '\n')).length := by
    rw [joinLines_eq_intercalate, List.intercalate_splitOn s '\n']
  rw [hidentity, joinLines_length, joinLines_length]
  have h1 := sum_map_filter_le List.length (fun l => !l.isEmpty) ((s.splitOn '\n').map pyStrip)
  have h2 := sum_map_pyStrip_le (s.splitOn '\n')
  have h3 := List.length_filter_le (fun l => !l.isEmpty) ((s.splitOn '\n').map pyStrip)
  rw [List.length_map] at h3
  omega

lemma removeMarkdownFormatting_length (s : List Char) :
    (removeMarkdownFormatting s).length ≤ s.length := by
  unfold removeMarkdownFormatting
  calc (reSub tableSepM _).length
      ≤ _ := reSub_length tableSepM_shrink _
    _ = (reSub numberedM _).length := List.length_map _ _
    _ ≤ _ := reSub_length numberedM_shrink _
    _ ≤ _ := reSub_length listMarkerM_shrink _
    _ ≤ _ := reSub_length hruleM_shrink _
    _ ≤ _ := reSub_length blockquoteM_shrink _
    _ ≤ _ := reSub_length codeBlockM_shrink _
    _ ≤ _ := reSub_length inlineCodeM_shrink _
    _ ≤ _ := reSub_length strikeM_shrink _
    _ ≤ _ := reSub_length italicM_shrink _
    _ ≤ _ := reSub_length boldM_shrink _
    _ ≤ s.length := reSub_length headerM_shrink s

lemma removeLinks_length (s : List Char) : (removeLinks s).length ≤ s.length := by
  unfold removeLinks
  calc (reSub emailM _).length
      ≤ _ := reSub_length emailM_shrink _
    _ ≤ _ := reSub_length urlM_shrink _
    _ ≤ _ := reSub_length refDefM_shrink _
    _ ≤ _ := reSub_length refLinkM_shrink _
    _ ≤ s.length := reSub_length mdLinkM_shrink s

lemma removeBracketsF_length (s : List Char) : (removeBracketsF s).length ≤ s.length := by
  unfold removeBracketsF
  calc (reSub parensM _).length
      ≤ _ := reSub_length parensM_shrink _
    _ ≤ s.length := reSub_length bracketsM_shrink s

lemma normalizeWhitespace_length (s : List Char) :
    (normalizeWhitespace s).length ≤ s.length := by
  unfold normalizeWhitespace
  calc (stripLines _).length
      ≤ _ := stripLines_length _
    _ ≤ _ := reSub_length punctSpaceM_shrink _
    _ ≤ _ := reSub_length spaceBeforePunctM_shrink _
    _ ≤ _ := reSub_length newlines3M_shrink _
    _ ≤ s.length := reSub_length wsRunM_shrink s

/-- C9 (amended): the text cleaner with its default options never increases
text length: `len(clean_text(t)) ≤ len(t)` for every string `t`.  (It is not
idempotent in general — see the counterexample.) -/
theorem cleanText_length (t : List Char) : (cleanText t).length ≤ t.length := by
  unfold cleanText
  calc (pyStrip _).length
      ≤ _ := pyStrip_length _
    _ ≤ _ := normalizeWhitespace_length _
    _ ≤ _ := removeBracketsF_length _
    _ ≤ _ := removeLinks_length _
    _ ≤ t.length := removeMarkdownFormatting_length t

/-- C9 (counterexample to idempotence): on `"a *b\nc* d"` the first pass
leaves the single `*`s alone (the lazy `(\*|_)(.*?)\1` cannot cross the
newline) but the whitespace normaliser merges the two lines, so the second
pass removes the now-matching `*b c*` — `clean_text(clean_text(t)) ≠
clean_text(t)`. -/
theorem cleanText_not_idempotent :
    cleanText (cleanText ('a' :: ' ' :: '*' :: 'b' :: '\n' :: 'c' :: '*' :: ' ' :: 'd' :: [])) ≠
      cleanText ('a' :: ' ' :: '*' :: 'b' :: '\n' :: 'c' :: '*' :: ' ' :: 'd' :: []) := by
  decide

/-- C4: the quality scorers never propagate an exception: on any internal
computational failure (the `none` case of the librosa statistics) the enhanced
scorer returns the default 0.6 and the legacy scorer returns 0.5, and on every
input both terminate normally with a numeric score. -/
theorem scorer_never_raises :
    calculateEnhancedAudioQuality none = 0.6 ∧
    calculateAudioQuality none = 0.5 ∧
    (∀ fo : Option Features, ∃ q : ℚ, calculateEnhancedAudioQuality fo = q) ∧
    (∀ fo : Option LegacyFeatures, ∃ q : ℚ, calculateAudioQuality fo = q) :=
  ⟨rfl, rfl, fun _ => ⟨_, rfl⟩, fun _ => ⟨_, rfl⟩⟩

end VietSpeak
